import Mathlib

/-!
Verification development for the SigmaPilot trader scoring and selection
engine.  The definitions below are a shallow embedding of
`services/hl-scout/src/leaderboard.ts` and of the performance scoring
module (`computePerformanceScore` and friends).  JavaScript numbers are
modelled by `JsNum`: either a rational (reals are modelled exactly, no
floating-point rounding or overflow) or one of the IEEE specials
`nan`, `posInf`, `negInf`, with the JS semantics of arithmetic,
comparison, `Math.min` / `Math.max` and `Math.round` on those specials.
The transcendental functions `Math.exp`, `Math.log10`, `Math.sqrt` are
irrational on rational inputs, so their finite-positive branches are
abstracted into a `RealOps` structure carrying the sign facts the code
relies on; all special-value behaviour (NaN, infinities, zero and
negative arguments) is modelled concretely.
-/

/-- A JavaScript number: NaN, one of the two infinities, or a finite value
(modelled as an exact rational). -/
inductive JsNum where
  | nan
  | posInf
  | negInf
  | fin (q : ℚ)
deriving DecidableEq

namespace JsNum

/-- `Number.isFinite`. -/
def isFinite : JsNum → Bool
  | fin _ => true
  | _ => false

/-- The rational carried by a finite JS number (0 for the specials). -/
def toQ : JsNum → ℚ
  | fin q => q
  | _ => 0

/-- JS unary minus. -/
def neg : JsNum → JsNum
  | nan => nan
  | posInf => negInf
  | negInf => posInf
  | fin q => fin (-q)

/-- JS `+` on numbers. -/
def add : JsNum → JsNum → JsNum
  | nan, _ => nan
  | _, nan => nan
  | posInf, negInf => nan
  | negInf, posInf => nan
  | posInf, _ => posInf
  | _, posInf => posInf
  | negInf, _ => negInf
  | _, negInf => negInf
  | fin a, fin b => fin (a + b)

/-- JS `-` on numbers. -/
def sub (a b : JsNum) : JsNum := a.add b.neg

/-- JS `*` on numbers. -/
def mul : JsNum → JsNum → JsNum
  | nan, _ => nan
  | _, nan => nan
  | posInf, posInf => posInf
  | posInf, negInf => negInf
  | negInf, posInf => negInf
  | negInf, negInf => posInf
  | posInf, fin b => if 0 < b then posInf else if b < 0 then negInf else nan
  | fin a, posInf => if 0 < a then posInf else if a < 0 then negInf else nan
  | negInf, fin b => if 0 < b then negInf else if b < 0 then posInf else nan
  | fin a, negInf => if 0 < a then negInf else if a < 0 then posInf else nan
  | fin a, fin b => fin (a * b)

/-- JS `/` on numbers (division by zero yields an infinity or NaN). -/
def div : JsNum → JsNum → JsNum
  | nan, _ => nan
  | _, nan => nan
  | posInf, posInf => nan
  | posInf, negInf => nan
  | negInf, posInf => nan
  | negInf, negInf => nan
  | posInf, fin b => if b < 0 then negInf else posInf
  | negInf, fin b => if b < 0 then posInf else negInf
  | fin _, posInf => fin 0
  | fin _, negInf => fin 0
  | fin a, fin b =>
    if b = 0 then (if 0 < a then posInf else if a < 0 then negInf else nan)
    else fin (a / b)

/-- JS `<` (any comparison with NaN is false). -/
def lt : JsNum → JsNum → Bool
  | nan, _ => false
  | _, nan => false
  | posInf, _ => false
  | negInf, posInf => true
  | negInf, negInf => false
  | negInf, fin _ => true
  | fin _, posInf => true
  | fin _, negInf => false
  | fin a, fin b => decide (a < b)

/-- JS `<=` (any comparison with NaN is false). -/
def le : JsNum → JsNum → Bool
  | nan, _ => false
  | _, nan => false
  | negInf, _ => true
  | _, posInf => true
  | posInf, _ => false
  | fin _, negInf => false
  | fin a, fin b => decide (a ≤ b)

/-- `Math.max` on two numbers (NaN contaminates). -/
def max (a b : JsNum) : JsNum :=
  match a, b with
  | nan, _ => nan
  | _, nan => nan
  | x, y => if lt x y then y else x

/-- `Math.min` on two numbers (NaN contaminates). -/
def min (a b : JsNum) : JsNum :=
  match a, b with
  | nan, _ => nan
  | _, nan => nan
  | x, y => if lt y x then y else x

/-- `Math.round` (round half towards plus infinity). -/
def round : JsNum → JsNum
  | nan => nan
  | posInf => posInf
  | negInf => negInf
  | fin q => fin (⌊q + 1/2⌋ : ℤ)

end JsNum

/-- `Number(x ?? 0)` for an optional numeric field. -/
def numOr0 (o : Option JsNum) : JsNum := o.getD (.fin 0)

/-- `Math.min(max, Math.max(min, value))`, the `clamp` helper of the
leaderboard module. -/
def jsClamp (v : JsNum) (lo hi : ℚ) : JsNum :=
  JsNum.min (.fin hi) (JsNum.max (.fin lo) v)

/-- Finite-branch values of `Math.exp`, `Math.log10` and `Math.sqrt`.
These are irrational on rational arguments, so the embedding carries them
abstractly together with the sign facts the scorer relies on; the
NaN/infinity/zero/negative behaviour of the JS functions is modelled
concretely in `jsExp`, `jsLog10` and `jsSqrt`. -/
structure RealOps where
  expQ : ℚ → ℚ
  log10Q : ℚ → ℚ
  sqrtQ : ℚ → ℚ
  expQ_pos : ∀ q, 0 < expQ q
  sqrtQ_nonneg : ∀ q, 0 ≤ sqrtQ q
  log10Q_pos : ∀ q, 1 < q → 0 < log10Q q

/-- `Math.exp`. -/
def jsExp (ops : RealOps) : JsNum → JsNum
  | .nan => .nan
  | .posInf => .posInf
  | .negInf => .fin 0
  | .fin q => .fin (ops.expQ q)

/-- `Math.log10` (NaN on negative arguments, `-Infinity` at zero). -/
def jsLog10 (ops : RealOps) : JsNum → JsNum
  | .nan => .nan
  | .posInf => .posInf
  | .negInf => .nan
  | .fin q => if 0 < q then .fin (ops.log10Q q) else if q = 0 then .negInf else .nan

/-- `Math.sqrt` (NaN on negative arguments). -/
def jsSqrt (ops : RealOps) : JsNum → JsNum
  | .nan => .nan
  | .posInf => .posInf
  | .negInf => .nan
  | .fin q => if 0 ≤ q then .fin (ops.sqrtQ q) else .nan

/-- A concrete instance of `RealOps` used to evaluate the model at
explicit inputs (the claims settled on concrete inputs do not depend on
the values of the transcendental functions, only on the modelled
special-value behaviour). -/
def ratOps : RealOps where
  expQ := fun _ => 1
  log10Q := fun _ => 5
  sqrtQ := fun _ => 0
  expQ_pos := fun _ => one_pos
  sqrtQ_nonneg := fun _ => le_refl 0
  log10Q_pos := fun _ _ => by norm_num

/-- A JS runtime value reaching a numeric coercion point: a number, or a
string together with its `parseFloat` and `Number` coercions (a string
determines both). -/
inductive JsVal where
  | num (v : JsNum)
  | str (parseF : JsNum) (toNum : JsNum)
deriving DecidableEq

/-- `Number(x)` for an optional value (`Number(undefined)` is NaN). -/
def jsNumberOf : Option JsVal → JsNum
  | none => .nan
  | some (.num v) => v
  | some (.str _ toN) => toN

/-- `typeof v === 'string' ? parseFloat(v) : v` as used by
`computeSmoothPnlScore`. -/
def jsValSmoothCoerce : JsVal → JsNum
  | .num v => v
  | .str p _ => p

/-- The `PnlPoint` union of the scoring module: a scalar, a tuple, or a
record with optional `timestamp` / `value` / `pnl` keys. -/
inductive PnlPoint where
  | scalar (v : JsVal)
  | tuple (elems : List JsVal)
  | record (timestamp value pnl : Option JsVal)
deriving DecidableEq

/-- One iteration of the value-extraction loop of `computeSmoothPnlScore`:
tuples contribute their last element, records `pnl ?? value`, scalars
themselves; after string coercion only finite numbers are kept. -/
def pnlPointValue : PnlPoint → Option ℚ
  | .scalar v =>
    match jsValSmoothCoerce v with
    | .fin q => some q
    | _ => none
  | .tuple es =>
    match es.getLast? with
    | none => none
    | some v =>
      match jsValSmoothCoerce v with
      | .fin q => some q
      | _ => none
  | .record _ value pnl =>
    match pnl <|> value with
    | none => none
    | some v =>
      match jsValSmoothCoerce v with
      | .fin q => some q
      | _ => none

/-- Scoring hyperparameters (`ScoringParams`).  All fields are finite
configuration constants. -/
structure ScoringParams where
  smoothPnlWeight : ℚ
  winRateWeight : ℚ
  pnlWeight : ℚ
  tradeFreqWeight : ℚ
  optimalTrades : ℚ
  tradeSigma : ℚ
  pnlReference : ℚ
  maxDrawdownLimit : ℚ
  scalpingThreshold : ℚ
deriving DecidableEq

/-- `DEFAULT_SCORING_PARAMS`. -/
def DEFAULT_SCORING_PARAMS : ScoringParams where
  smoothPnlWeight := 45/100
  winRateWeight := 30/100
  pnlWeight := 15/100
  tradeFreqWeight := 10/100
  optimalTrades := 100
  tradeSigma := 150
  pnlReference := 100000
  maxDrawdownLimit := 80/100
  scalpingThreshold := 100

/-- Result of `computeSmoothPnlScore`.  The extracted values are finite by
construction and every subsequent operation of the source is closed on the
reals (the single division is guarded by `peak > 0`, and the final score's
denominator is `1 + mdd + ulcer`; the source's `Number.isFinite` guard on
the score coincides with the rational model, where division by zero yields
zero exactly as the guarded JS code yields 0). -/
structure SmoothPnlResult where
  score : ℚ
  maxDrawdown : ℚ
  ulcerIndex : ℚ
  upFraction : ℚ
deriving DecidableEq

/-- State of the drawdown loop: running peak, max drawdown, sum of squared
drawdowns. -/
def smoothDdStep (s : ℚ × ℚ × ℚ) (xi : ℚ) : ℚ × ℚ × ℚ :=
  let peak := if s.1 < xi then xi else s.1
  let dd := if 0 < peak then (let d := (peak - xi) / peak; if d < 0 then 0 else d) else 0
  (peak, Max.max s.2.1 dd, s.2.2 + dd * dd)

/-- `computeSmoothPnlScore`. -/
def computeSmoothPnlScore (ops : RealOps) (pnlList : List PnlPoint) : SmoothPnlResult :=
  let values := pnlList.filterMap pnlPointValue
  match values with
  | [] => ⟨0, 0, 0, 0⟩
  | [_] => ⟨0, 0, 0, 0⟩
  | v0 :: _ :: _ =>
    let x := values.map (fun v => v - v0)
    let n : ℚ := x.length
    let st := x.foldl smoothDdStep (0, 0, 0)
    let mdd := st.2.1
    let ulcer := ops.sqrtQ (st.2.2 / n)
    let upCount := (x.zip x.tail).countP (fun p => decide (p.1 < p.2))
    let upFrac : ℚ := (upCount : ℚ) / (n - 1)
    let last := x.getLastD 0
    let maxAbs := (x.map (fun v => |v|)).foldl Max.max 0
    let r := if 0 < last ∧ 0 < maxAbs then last / maxAbs else 0
    let score := (Max.max 0 r * upFrac) / (1 + mdd + ulcer)
    ⟨score, mdd, ulcer, upFrac⟩

/-- `computeAdjustedWinRate` (called by the scorer only on validated
finite, non-negative win/loss counts). -/
def computeAdjustedWinRate (numWins numLosses : ℚ) : ℚ :=
  let baseWinRate := (numWins + 1) / (numWins + numLosses + 2)
  if numLosses = 0 ∧ 0 < numWins then (7/10) * baseWinRate
  else if 95/100 < baseWinRate ∧ 20 < numWins + numLosses then (8/10) * baseWinRate
  else baseWinRate

/-- `computeNormalizedPnl`.  `realizedPnl` is kept as a raw JS number: the
source does not validate it, so NaN and infinities flow through the log
normalisation. -/
def computeNormalizedPnl (ops : RealOps) (realizedPnl : JsNum) (reference : ℚ) : JsNum :=
  if realizedPnl.le (.fin 0) then .fin 0
  else
    let logPnl := jsLog10 ops (realizedPnl.add (.fin 1))
    let logRef := jsLog10 ops (.fin reference)
    JsNum.min (.fin 1) (JsNum.max (.fin 0) (logPnl.div logRef))

/-- `computeTradeFreqScore` (`numTrades` is validated finite by the caller;
the Gaussian's division is kept in JS arithmetic since `tradeSigma` is an
arbitrary parameter). -/
def computeTradeFreqScore (ops : RealOps) (numTrades optimal sigma scalpingThreshold : ℚ) :
    JsNum :=
  if numTrades ≤ 0 then .fin 0
  else
    let diff := numTrades - optimal
    let score := jsExp ops ((JsNum.fin (diff * diff)).neg.div (.fin (2 * sigma * sigma)))
    if scalpingThreshold < numTrades then
      let excess := numTrades - scalpingThreshold
      if excess ≤ 50 then score.mul (.fin (7/10))
      else if excess ≤ 100 then score.mul (.fin (4/10))
      else if excess ≤ 200 then score.mul (.fin (2/10))
      else score.mul (.fin (5/100))
    else score

/-- `AccountStats`. -/
structure AccountStats where
  realizedPnl : JsNum
  numTrades : JsNum
  numWins : JsNum
  numLosses : JsNum
  pnlList : Option (List PnlPoint)
deriving DecidableEq

/-- The two hard-filter reasons. -/
inductive FilterReason where
  | max_drawdown_exceeded
  | scalping_penalty
deriving DecidableEq

/-- The four weighted components of `ScoringResult.details`. -/
structure WeightedComponents where
  smoothPnl : ℚ
  winRate : ℚ
  pnl : JsNum
  tradeFreq : JsNum
deriving DecidableEq

/-- `ScoringResult.details`. -/
structure ScoringDetails where
  smoothPnlScore : ℚ
  maxDrawdown : ℚ
  rawWinRate : ℚ
  adjWinRate : ℚ
  normalizedPnl : JsNum
  tradeFreqScore : JsNum
  weightedComponents : WeightedComponents
deriving DecidableEq

/-- `ScoringResult`. -/
structure ScoringResult where
  score : JsNum
  filtered : Bool
  filterReason : Option FilterReason
  details : ScoringDetails
deriving DecidableEq

/-- `createZeroResult`. -/
def createZeroResult : ScoringResult where
  score := .fin 0
  filtered := false
  filterReason := none
  details := ⟨0, 0, 0, 0, .fin 0, .fin 0, ⟨0, 0, .fin 0, .fin 0⟩⟩

/-- `createFilteredResult`. -/
def createFilteredResult (maxDrawdown : ℚ) (reason : FilterReason) : ScoringResult where
  score := .fin 0
  filtered := true
  filterReason := some reason
  details := ⟨0, maxDrawdown, 0, 0, .fin 0, .fin 0, ⟨0, 0, .fin 0, .fin 0⟩⟩

/-- `pnlList && pnlList.length >= 2 ? computeSmoothPnlScore(pnlList) : zeros`. -/
def computeSmoothOrZero (ops : RealOps) : Option (List PnlPoint) → SmoothPnlResult
  | some l => if 2 ≤ l.length then computeSmoothPnlScore ops l else ⟨0, 0, 0, 0⟩
  | none => ⟨0, 0, 0, 0⟩

/-- `computePerformanceScore`. -/
def computePerformanceScore (ops : RealOps) (stats : AccountStats)
    (params : ScoringParams) : ScoringResult :=
  if ¬ stats.numTrades.isFinite ∨ stats.numTrades.lt (.fin 0) then createZeroResult
  else if ¬ stats.numWins.isFinite ∨ stats.numWins.lt (.fin 0) then createZeroResult
  else if ¬ stats.numLosses.isFinite ∨ stats.numLosses.lt (.fin 0) then createZeroResult
  else
    let smoothPnlResult := computeSmoothOrZero ops stats.pnlList
    let smoothPnlScore := smoothPnlResult.score
    let maxDrawdown := smoothPnlResult.maxDrawdown
    if params.maxDrawdownLimit < maxDrawdown then
      createFilteredResult maxDrawdown .max_drawdown_exceeded
    else
      let wins := stats.numWins.toQ
      let losses := stats.numLosses.toQ
      let rawWinRate := if 0 < wins + losses then wins / (wins + losses) else 0
      let adjWinRate := computeAdjustedWinRate wins losses
      let normalizedPnl := computeNormalizedPnl ops stats.realizedPnl params.pnlReference
      let tradeFreqScore := computeTradeFreqScore ops stats.numTrades.toQ
        params.optimalTrades params.tradeSigma params.scalpingThreshold
      let weightedSmooth := params.smoothPnlWeight * smoothPnlScore
      let weightedWinRate := params.winRateWeight * adjWinRate
      let weightedPnl := (JsNum.fin params.pnlWeight).mul normalizedPnl
      let weightedFreq := (JsNum.fin params.tradeFreqWeight).mul tradeFreqScore
      let score := ((JsNum.fin weightedSmooth).add (.fin weightedWinRate)).add
        (weightedPnl.add weightedFreq)
      { score := if score.isFinite then score else .fin 0
        filtered := false
        filterReason := none
        details := ⟨smoothPnlScore, maxDrawdown, rawWinRate, adjWinRate,
          normalizedPnl, tradeFreqScore,
          ⟨weightedSmooth, weightedWinRate, weightedPnl, weightedFreq⟩⟩ }

/-!
Embedding of `services/hl-scout/src/leaderboard.ts`.
-/

/-- The nested stats object of a raw leaderboard entry, and equally the
`AddressStats` payload of `fetchAddressStat` (same optional numeric
fields). -/
structure AddressStats where
  winRate : Option JsNum
  openPosCount : Option JsNum
  closePosCount : Option JsNum
  avgPosDuration : Option JsNum
  totalPnl : Option JsNum
  maxDrawdown : Option JsNum
deriving DecidableEq

/-- `LeaderboardRawEntry` (the fields the scorer reads). -/
structure LeaderboardRawEntry where
  address : String
  winRate : Option JsNum
  executedOrders : Option JsNum
  realizedPnl : Option JsNum
  remark : Option String
  labels : Option (List String)
  pnlList : Option (List PnlPoint)
  maxDrawdown : Option JsNum
  stats : Option AddressStats
deriving DecidableEq

/-- The `meta` blob attached to a ranked entry: the spread of the raw
entry plus, after enrichment, the merged `stats` blob.  The audit-only
keys of the blob (scoring details, win/loss counters, filter flags) are
not read back by any modelled operation and are not tracked. -/
structure EntryMeta where
  raw : LeaderboardRawEntry
  stats : Option AddressStats
deriving DecidableEq

/-- `RankedEntry`.  `rank` and `weight` are attached by the final indexed
map of `scoreEntries`; before that they hold the placeholders 0 / `fin 0`
(the JS objects simply lack the fields until then, and nothing reads them
earlier). -/
structure RankedEntry where
  address : String
  rank : ℕ
  score : JsNum
  weight : JsNum
  filtered : Bool
  filterReason : Option FilterReason
  winRate : JsNum
  executedOrders : JsNum
  realizedPnl : JsNum
  efficiency : JsNum
  pnlConsistency : ℚ
  remark : Option String
  labels : List String
  statOpenPositions : Option JsNum
  statClosedPositions : Option JsNum
  statAvgPosDuration : Option JsNum
  statTotalPnl : Option JsNum
  statMaxDrawdown : Option JsNum
  meta : EntryMeta
deriving DecidableEq

/-- `normalizeAddress` (lower-cases the address). -/
def normalizeAddress (s : String) : String := s.toLower

/-- `apiMaxDrawdown = entry.stats?.maxDrawdown ?? entry.maxDrawdown ?? 0`. -/
def apiMddOf (entry : LeaderboardRawEntry) : JsNum :=
  ((entry.stats.bind AddressStats.maxDrawdown).orElse fun _ => entry.maxDrawdown).getD (.fin 0)

/-- The per-entry body of the `.map` inside `scoreEntries`: coercions,
the two hard filters, and the composite scoring call. -/
def mapEntry (ops : RealOps) (params : ScoringParams) (hardLimit : ℚ)
    (entry : LeaderboardRawEntry) : RankedEntry :=
  let address := normalizeAddress entry.address
  let winRate := jsClamp (numOr0 entry.winRate) 0 1
  let executed := numOr0 entry.executedOrders
  let pnl := numOr0 entry.realizedPnl
  let efficiency := if JsNum.lt (.fin 0) executed then pnl.div executed else pnl
  let apiMaxDrawdown := apiMddOf entry
  if JsNum.lt (.fin params.maxDrawdownLimit) apiMaxDrawdown then
    { address := address, rank := 0, score := .fin 0, weight := .fin 0
      filtered := true, filterReason := some .max_drawdown_exceeded
      winRate := winRate, executedOrders := executed, realizedPnl := pnl
      efficiency := efficiency, pnlConsistency := 0
      remark := entry.remark, labels := entry.labels.getD []
      statOpenPositions := none, statClosedPositions := none
      statAvgPosDuration := none, statTotalPnl := none
      statMaxDrawdown := some apiMaxDrawdown
      meta := ⟨entry, none⟩ }
  else if JsNum.lt (.fin hardLimit) executed then
    { address := address, rank := 0, score := .fin 0, weight := .fin 0
      filtered := true, filterReason := some .scalping_penalty
      winRate := winRate, executedOrders := executed, realizedPnl := pnl
      efficiency := efficiency, pnlConsistency := 0
      remark := entry.remark, labels := entry.labels.getD []
      statOpenPositions := none, statClosedPositions := none
      statAvgPosDuration := none, statTotalPnl := none
      statMaxDrawdown := some apiMaxDrawdown
      meta := ⟨entry, none⟩ }
  else
    let numTrades := executed
    let numWins := (numTrades.mul winRate).round
    let numLosses := numTrades.sub numWins
    let pnlListv := entry.pnlList.getD []
    let scoringResult := computePerformanceScore ops
      ⟨pnl, numTrades, numWins, numLosses, some pnlListv⟩ params
    let effectiveMaxDrawdown :=
      JsNum.max apiMaxDrawdown (.fin scoringResult.details.maxDrawdown)
    { address := address, rank := 0, score := scoringResult.score, weight := .fin 0
      filtered := scoringResult.filtered, filterReason := scoringResult.filterReason
      winRate := winRate, executedOrders := executed, realizedPnl := pnl
      efficiency := efficiency, pnlConsistency := scoringResult.details.smoothPnlScore
      remark := entry.remark, labels := entry.labels.getD []
      statOpenPositions := none, statClosedPositions := none
      statAvgPosDuration := none, statTotalPnl := none
      statMaxDrawdown := some effectiveMaxDrawdown
      meta := ⟨entry, none⟩ }

/-- The `base` list of `scoreEntries`: the mapped entries, keeping those
with a finite score or a filter flag. -/
def scoreBase (ops : RealOps) (params : ScoringParams) (hardLimit : ℚ)
    (entries : List LeaderboardRawEntry) : List RankedEntry :=
  (entries.map (mapEntry ops params hardLimit)).filter
    (fun e => e.score.isFinite || e.filtered)

/-- Drop of hard-filtered entries followed by the suspicious
perfect-record drop (`winRate < 0.999 || executedOrders < 10` kept). -/
def scoreSurvivors (ops : RealOps) (params : ScoringParams) (hardLimit : ℚ)
    (entries : List LeaderboardRawEntry) : List RankedEntry :=
  ((scoreBase ops params hardLimit entries).filter (fun e => ! e.filtered)).filter
    (fun e => JsNum.lt e.winRate (.fin (999/1000)) || JsNum.lt e.executedOrders (.fin 10))

/-- Descending stable sort by score, `scored.sort((a, b) => b.score - a.score)`.
The comparator is a total preorder on the (provably finite) scores, so the
stable JS sort coincides with stable insertion sort under
score-descending. -/
def sortByScoreDesc (l : List RankedEntry) : List RankedEntry :=
  l.insertionSort (fun a b => JsNum.le b.score a.score)

/-- The final indexed map of `scoreEntries`: assign `rank = idx + 1` and
the top-`selectCount` normalized weight. -/
def assignRankWeight (selectCount : ℕ) (total : JsNum) (i : ℕ) :
    List RankedEntry → List RankedEntry
  | [] => []
  | e :: rest =>
    { e with rank := i + 1
             weight := if i < selectCount then (JsNum.max e.score (.fin 0)).div total
                       else .fin 0 } :: assignRankWeight selectCount total (i + 1) rest

/-- `totalScore`: sum of the clamped scores of the first `selectCount`
sorted entries, replaced by 1 when falsy (`|| 1`; 0 and NaN are the
falsy numbers reachable here). -/
def totalScoreOf (selectCount : ℕ) (sorted : List RankedEntry) : JsNum :=
  let raw := (sorted.take selectCount).foldl
    (fun s e => s.add (JsNum.max e.score (.fin 0))) (.fin 0)
  if raw = .fin 0 ∨ raw = .nan then .fin 1 else raw

/-- `scoreEntries` (phase 1 of the two-phase scoring). -/
def scoreEntries (ops : RealOps) (params : ScoringParams) (hardLimit : ℚ)
    (selectCount : ℕ) (entries : List LeaderboardRawEntry) : List RankedEntry :=
  let base := scoreBase ops params hardLimit entries
  let scored := scoreSurvivors ops params hardLimit entries
  let scored := if scored.isEmpty then base else scored
  let sorted := sortByScoreDesc scored
  assignRankWeight selectCount (totalScoreOf selectCount sorted) 0 sorted

/-- The phase-2 re-filter predicate of `refreshPeriod`: keep an entry
unless its enriched `statMaxDrawdown ?? 0` exceeds the limit. -/
def refilterSurvivors (lim : ℚ) (es : List RankedEntry) : List RankedEntry :=
  es.filter (fun e => ! JsNum.lt (.fin lim) (e.statMaxDrawdown.getD (.fin 0)))

/-- The weight-recalculation loop of `refreshPeriod`: entries at the first
`selectCount` positions get `score / sumScores` when the sum is positive,
everything else weight 0. -/
def reweight (selectCount : ℕ) (sumScores : JsNum) (i : ℕ) :
    List RankedEntry → List RankedEntry
  | [] => []
  | e :: rest =>
    { e with weight := if i < selectCount ∧ JsNum.lt (.fin 0) sumScores = true
                       then e.score.div sumScores else .fin 0 }
      :: reweight selectCount sumScores (i + 1) rest

/-- The phase-2 re-filter of `refreshPeriod` (lines 184–213): filter on the
enriched drawdown and, only when at least one entry was removed, recompute
the weights of the first `selectCount` surviving positions.  Ranks are not
touched. -/
def refreshRefilter (lim : ℚ) (selectCount : ℕ) (es : List RankedEntry) :
    List RankedEntry :=
  let surv := refilterSurvivors lim es
  if surv.length < es.length then
    let sumScores := (surv.take selectCount).foldl (fun s e => s.add e.score) (.fin 0)
    reweight selectCount sumScores 0 surv
  else surv

/-- `Number.isFinite(Number(x)) ? Number(x) : previous` for an optional
numeric stat field. -/
def statUpdate (incoming old : Option JsNum) : Option JsNum :=
  match incoming with
  | some v => if v.isFinite then some v else old
  | none => old

/-- `applyStatsToEntry`: overwrite `winRate` when the fetched value is a
finite number, refresh the five `stat*` fields when the fetched values are
finite, and merge the stats blob into `meta`. -/
def applyStatsToEntry (e : RankedEntry) (stats : AddressStats) : RankedEntry :=
  let e :=
    match stats.winRate with
    | some v => if v.isFinite then { e with winRate := jsClamp v 0 1 } else e
    | none => e
  { e with
    statOpenPositions := statUpdate stats.openPosCount e.statOpenPositions
    statClosedPositions := statUpdate stats.closePosCount e.statClosedPositions
    statAvgPosDuration := statUpdate stats.avgPosDuration e.statAvgPosDuration
    statTotalPnl := statUpdate stats.totalPnl e.statTotalPnl
    statMaxDrawdown := statUpdate stats.maxDrawdown e.statMaxDrawdown
    meta := { e.meta with stats := some stats } }

/-- An element of a raw portfolio history list: either not an array, or an
array of runtime values. -/
inductive HistItem where
  | notArr
  | arr (elems : List JsVal)
deriving DecidableEq

/-- A parsed history point (`{ ts, value }`). -/
structure HistPoint where
  ts : ℚ
  value : ℚ
deriving DecidableEq

/-- `parseHistoryPoints`: skip non-arrays and short arrays, skip points
whose timestamp does not coerce to a finite number, keep the rest in
order, substituting 0 for a non-finite value. -/
def parseHistoryPoints : List HistItem → List HistPoint
  | [] => []
  | .notArr :: rest => parseHistoryPoints rest
  | .arr [] :: rest => parseHistoryPoints rest
  | .arr [_] :: rest => parseHistoryPoints rest
  | .arr (a :: b :: _) :: rest =>
    match jsNumberOf (some a) with
    | .fin tq =>
      { ts := tq
        value := match jsNumberOf (some b) with | .fin vq => vq | _ => 0 }
        :: parseHistoryPoints rest
    | _ => parseHistoryPoints rest

/-- The declarative per-item description of `parseHistoryPoints`: `none`
for malformed items and non-finite timestamps, otherwise the kept point. -/
def parsePointSpec : HistItem → Option HistPoint
  | .notArr => none
  | .arr [] => none
  | .arr [_] => none
  | .arr (a :: b :: _) =>
    match jsNumberOf (some a) with
    | .fin tq =>
      some { ts := tq
             value := match jsNumberOf (some b) with | .fin vq => vq | _ => 0 }
    | _ => none

/-- `PortfolioWindowSeries`. -/
structure WindowSeries where
  window : String
  pnlHistory : List HistPoint
  equityHistory : List HistPoint
deriving DecidableEq

/-- A merged sample of `mergeHistories`. -/
structure MergedSample where
  ts : ℚ
  pnl : Option ℚ
  equity : Option ℚ
deriving DecidableEq

/-- Upsert of the pnl component into the JS `Map` (insertion order
preserved, existing key updated in place). -/
def upsertPnl (ts v : ℚ) : List MergedSample → List MergedSample
  | [] => [⟨ts, some v, none⟩]
  | s :: rest => if s.ts = ts then { s with pnl := some v } :: rest
                 else s :: upsertPnl ts v rest

/-- Upsert of the equity component into the JS `Map`. -/
def upsertEquity (ts v : ℚ) : List MergedSample → List MergedSample
  | [] => [⟨ts, none, some v⟩]
  | s :: rest => if s.ts = ts then { s with equity := some v } :: rest
                 else s :: upsertEquity ts v rest

/-- `mergeHistories`: merge the two histories keyed by timestamp, then
sort ascending by timestamp. -/
def mergeHistories (series : WindowSeries) : List MergedSample :=
  let m := series.pnlHistory.foldl (fun m p => upsertPnl p.ts p.value m) []
  let m := series.equityHistory.foldl (fun m p => upsertEquity p.ts p.value m) m
  m.insertionSort (fun a b => a.ts ≤ b.ts)

/-- `new Date(ms)` for a finite millisecond value: invalid beyond the
ECMAScript time range, otherwise truncated towards zero. -/
def dateFromMs (q : ℚ) : Option ℤ :=
  if |q| ≤ 8640000000000000 then some (if 0 ≤ q then ⌊q⌋ else ⌈q⌉) else none

/-- A pnl-point row as assembled by `insertPnlPointsInTransaction` (the
period column is the same for every row of one call and is omitted from
the row key). -/
structure PnlRow where
  address : String
  source : String
  window : String
  ts : ℤ
  pnlValue : Option ℚ
  equityValue : Option ℚ
deriving DecidableEq

/-- The key under which the persisted points must be unique within one
transaction. -/
def PnlRow.key (r : PnlRow) : String × String × String × ℤ :=
  (r.address, r.source, r.window, r.ts)

/-- `Number(point?.timestamp)` on a meta pnl-list element. -/
def metaPointTs : PnlPoint → JsNum
  | .record t _ _ => jsNumberOf t
  | _ => .nan

/-- `Number(point?.value)` on a meta pnl-list element. -/
def metaPointVal : PnlPoint → JsNum
  | .record _ v _ => jsNumberOf v
  | _ => .nan

/-- The hyperbot rows synthesized from one tracked entry's
`meta.pnlList`. -/
def hyperbotRowsOf (periodWindow : String) (e : RankedEntry) : List PnlRow :=
  (e.meta.raw.pnlList.getD []).filterMap (fun p =>
    match metaPointTs p with
    | .fin tq =>
      (dateFromMs tq).map (fun d =>
        { address := e.address.toLower, source := "hyperbot", window := periodWindow
          ts := d
          pnlValue := match metaPointVal p with | .fin v => some v | _ => none
          equityValue := none })
    | _ => none)

/-- `WINDOW_PERIOD_MAP`. -/
def windowPeriodMap : String → Option ℤ
  | "day" => some 1
  | "week" => some 7
  | "month" => some 30
  | _ => none

/-- The hyperliquid rows synthesized from one address's window series. -/
def hyperliquidRowsOf (period : ℤ) (address : String)
    (seriesList : List WindowSeries) : List PnlRow :=
  seriesList.flatMap (fun series =>
    if windowPeriodMap series.window = some period then
      (mergeHistories series).filterMap (fun sample =>
        (dateFromMs sample.ts).map (fun d =>
          { address := address, source := "hyperliquid", window := series.window
            ts := d, pnlValue := sample.pnl, equityValue := sample.equity }))
    else [])

/-- The full `points` list assembled by `insertPnlPointsInTransaction`
before the batched SQL inserts (the series map is modelled as an
association list in Map iteration order). -/
def buildPnlPoints (period : ℤ) (tracked : List RankedEntry)
    (series : List (String × List WindowSeries)) : List PnlRow :=
  tracked.flatMap (hyperbotRowsOf (String.append "period_" (toString period))) ++
    series.flatMap (fun p => hyperliquidRowsOf period p.1 p.2)

/-- Outcome of one upstream fetch attempt inside `requestJson`: a parsed
payload, or one of the failure modes (non-success HTTP status, timeout or
abort, body that fails to parse as JSON). -/
inductive FetchOutcome (α : Type) where
  | ok (payload : α)
  | httpError (status : ℕ)
  | timeout
  | decodeFailure
deriving DecidableEq

/-- `requestJson` over the sequence of attempt outcomes the upstream
produces: the first successful attempt's payload, or `none` when every
attempt fails — the model of the final `throw lastErr`. -/
def requestJsonModel {α : Type} : List (FetchOutcome α) → Option α
  | [] => none
  | .ok p :: _ => some p
  | _ :: rest => requestJsonModel rest

/-- The JSON payload of the address-stat endpoint: an optional `data`
object of raw runtime values. -/
structure StatData where
  winRate : Option JsVal
  openPosCount : Option JsVal
  closePosCount : Option JsVal
  avgPosDuration : Option JsVal
  totalPnl : Option JsVal
  maxDrawdown : Option JsVal
deriving DecidableEq

/-- The address-stat response body. -/
structure StatPayload where
  data : Option StatData
deriving DecidableEq

/-- `Number.isFinite(Number(x)) ? Number(x) : undefined`. -/
def finCoerce (v : Option JsVal) : Option JsNum :=
  if (jsNumberOf v).isFinite then some (jsNumberOf v) else none

/-- `fetchAddressStat` over the attempt outcomes: `requestJson` is called
with 2 retries (3 attempts); any error is caught and turned into `null`,
a payload without `data` yields `null`, and otherwise the stat fields are
coerced — `winRate` by a `typeof` check only, the others by a finite
`Number` coercion. -/
def fetchAddressStatModel (outcomes : List (FetchOutcome StatPayload)) :
    Option AddressStats :=
  match requestJsonModel (outcomes.take 3) with
  | none => none
  | some payload =>
    match payload.data with
    | none => none
    | some d =>
      some { winRate := match d.winRate with
               | some (.num v) => some v
               | _ => none
             openPosCount := finCoerce d.openPosCount
             closePosCount := finCoerce d.closePosCount
             avgPosDuration := finCoerce d.avgPosDuration
             totalPnl := finCoerce d.totalPnl
             maxDrawdown := finCoerce d.maxDrawdown }

/-!
Basic facts about the JS number domain.
-/

theorem JsNum.isFinite_iff {v : JsNum} : v.isFinite = true ↔ ∃ q, v = .fin q := by
  cases v <;> simp [JsNum.isFinite]

theorem JsNum.add_fin (a b : ℚ) : (JsNum.fin a).add (.fin b) = .fin (a + b) := rfl

theorem JsNum.max_fin_zero (q : ℚ) :
    JsNum.max (.fin q) (.fin 0) = .fin (Max.max q 0) := by
  rcases le_or_lt q 0 with h | h
  · simp [JsNum.max, JsNum.lt, not_lt.mpr h, max_eq_right h,
      lt_iff_le_and_ne, h]
  · simp [JsNum.max, JsNum.lt, not_lt.mpr h.le, max_eq_left h.le]

theorem JsNum.div_fin (a b : ℚ) (hb : b ≠ 0) :
    (JsNum.fin a).div (.fin b) = .fin (a / b) := by
  simp [JsNum.div, hb]

/-!
Claim C9 — frame conditions of `applyStatsToEntry`.
-/

/-- Claim C9: for every ranked entry and fetched stats, `applyStatsToEntry`
changes only `winRate` (and only when the fetched `winRate` is a finite
number, in which case it is clamped to `[0, 1]`), the five `stat*` fields
(each only when the corresponding raw stat coerces to a finite number,
otherwise the previous value is retained), and `meta` (merging the stats
blob); `address`, `rank`, `score`, `weight`, `filtered`, `filterReason`,
`executedOrders`, `realizedPnl`, `efficiency`, `pnlConsistency`, `remark`
and `labels` are unchanged — in particular enrichment never changes an
entry's score. -/
theorem applyStatsToEntry_frame (e : RankedEntry) (s : AddressStats) :
    (applyStatsToEntry e s).address = e.address ∧
    (applyStatsToEntry e s).rank = e.rank ∧
    (applyStatsToEntry e s).score = e.score ∧
    (applyStatsToEntry e s).weight = e.weight ∧
    (applyStatsToEntry e s).filtered = e.filtered ∧
    (applyStatsToEntry e s).filterReason = e.filterReason ∧
    (applyStatsToEntry e s).executedOrders = e.executedOrders ∧
    (applyStatsToEntry e s).realizedPnl = e.realizedPnl ∧
    (applyStatsToEntry e s).efficiency = e.efficiency ∧
    (applyStatsToEntry e s).pnlConsistency = e.pnlConsistency ∧
    (applyStatsToEntry e s).remark = e.remark ∧
    (applyStatsToEntry e s).labels = e.labels ∧
    (applyStatsToEntry e s).winRate =
      (match s.winRate with
       | some v => if v.isFinite then jsClamp v 0 1 else e.winRate
       | none => e.winRate) ∧
    (applyStatsToEntry e s).statOpenPositions =
      statUpdate s.openPosCount e.statOpenPositions ∧
    (applyStatsToEntry e s).statClosedPositions =
      statUpdate s.closePosCount e.statClosedPositions ∧
    (applyStatsToEntry e s).statAvgPosDuration =
      statUpdate s.avgPosDuration e.statAvgPosDuration ∧
    (applyStatsToEntry e s).statTotalPnl = statUpdate s.totalPnl e.statTotalPnl ∧
    (applyStatsToEntry e s).statMaxDrawdown =
      statUpdate s.maxDrawdown e.statMaxDrawdown ∧
    (applyStatsToEntry e s).meta = { e.meta with stats := some s } := by
  unfold applyStatsToEntry
  cases hw : s.winRate with
  | none => simp
  | some v =>
    by_cases hf : v.isFinite = true
    · simp [hf]
    · simp [hf]

/-!
Claim C7 — `parseHistoryPoints`.
-/

/-- Claim C7, counterexample: a point whose value does not coerce to a
finite number is not discarded — it is kept with value 0.  The parsed
output of the single malformed-value point `[1, NaN]` is the non-empty
list `[{ ts := 1, value := 0 }]`, refuting the claim that such a point is
absent from the parsed sequence. -/
theorem parseHistoryPoints_keeps_nonfinite_value :
    parseHistoryPoints [.arr [.num (.fin 1), .num .nan]] =
      [{ ts := 1, value := 0 }] ∧
    parseHistoryPoints [.arr [.num (.fin 1), .num .nan]] ≠ [] := by
  constructor
  · rfl
  · decide

/-- Claim C7, amended: `parseHistoryPoints` discards exactly the items
that are not arrays of length ≥ 2 and the points whose timestamp does not
coerce to a finite number; every point with a finite timestamp is kept in
input order, carrying its coerced value when that value is finite and 0
otherwise (`parsePointSpec` is the literal per-item description). -/
theorem parseHistoryPoints_characterization (l : List HistItem) :
    parseHistoryPoints l = l.filterMap parsePointSpec := by
  induction l with
  | nil => rfl
  | cons item rest ih =>
    cases item with
    | notArr => simpa [parseHistoryPoints, parsePointSpec] using ih
    | arr es =>
      match es with
      | [] => simpa [parseHistoryPoints, parsePointSpec] using ih
      | [a] => simpa [parseHistoryPoints, parsePointSpec] using ih
      | a :: b :: rest2 =>
        cases h : jsNumberOf (some a) <;>
          simp [parseHistoryPoints, parsePointSpec, h, ih]

/-!
Claim C10 — `fetchAddressStat`.
-/

/-- A structurally valid stats payload whose `winRate` is the number NaN. -/
def nanWinRatePayload : StatPayload :=
  ⟨some ⟨some (.num .nan), none, none, none, none, none⟩⟩

/-- Claim C10, counterexample: on a structurally valid payload whose
`data.winRate` is NaN (a number by `typeof`, but not finite),
`fetchAddressStat` returns stats with `winRate` set to NaN — a numeric
field set although the raw value does not coerce to a finite number. -/
theorem fetchAddressStat_winRate_not_finite :
    fetchAddressStatModel [.ok nanWinRatePayload] =
      some ⟨some .nan, none, none, none, none, none⟩ ∧
    JsNum.nan.isFinite = false := by
  constructor
  · rfl
  · rfl

/-- Claim C10, amended: `fetchAddressStat` never propagates a failure —
when every attempt of `requestJson` (2 retries, hence the first three
outcomes) fails, or when the payload lacks a `data` field, it returns
`null`; on a structurally valid payload it returns stats whose
`openPosCount`, `closePosCount`, `avgPosDuration`, `totalPnl` and
`maxDrawdown` fields are set exactly when the raw values coerce to finite
numbers, while `winRate` is set whenever the raw value is a number — even
a non-finite one (only a `typeof` check is applied). -/
theorem fetchAddressStat_error_handling (outcomes : List (FetchOutcome StatPayload)) :
    (requestJsonModel (outcomes.take 3) = none → fetchAddressStatModel outcomes = none) ∧
    (∀ p, requestJsonModel (outcomes.take 3) = some p → p.data = none →
      fetchAddressStatModel outcomes = none) ∧
    (∀ p d, requestJsonModel (outcomes.take 3) = some p → p.data = some d →
      fetchAddressStatModel outcomes = some
        { winRate := match d.winRate with
            | some (.num v) => some v
            | _ => none
          openPosCount := finCoerce d.openPosCount
          closePosCount := finCoerce d.closePosCount
          avgPosDuration := finCoerce d.avgPosDuration
          totalPnl := finCoerce d.totalPnl
          maxDrawdown := finCoerce d.maxDrawdown }) ∧
    (∀ s, fetchAddressStatModel outcomes = some s →
      (∀ v, s.openPosCount = some v → v.isFinite = true) ∧
      (∀ v, s.closePosCount = some v → v.isFinite = true) ∧
      (∀ v, s.avgPosDuration = some v → v.isFinite = true) ∧
      (∀ v, s.totalPnl = some v → v.isFinite = true) ∧
      (∀ v, s.maxDrawdown = some v → v.isFinite = true)) := by
  refine ⟨?_, ?_, ?_, ?_⟩
  · intro h
    unfold fetchAddressStatModel
    rw [h]
  · intro p hp hd
    unfold fetchAddressStatModel
    rw [hp]
    dsimp only
    rw [hd]
  · intro p d hp hd
    unfold fetchAddressStatModel
    rw [hp]
    dsimp only
    rw [hd]
  · intro s hs
    unfold fetchAddressStatModel at hs
    rcases hr : requestJsonModel (outcomes.take 3) with _ | p
    · rw [hr] at hs; exact absurd hs (by simp)
    · rw [hr] at hs
      dsimp only at hs
      rcases hd : p.data with _ | d
      · rw [hd] at hs; exact absurd hs (by simp)
      · rw [hd] at hs
        dsimp only at hs
        have hs' := Option.some.inj hs
        subst hs'
        refine ⟨?_, ?_, ?_, ?_, ?_⟩ <;>
          · intro v hv
            simp only [finCoerce] at hv
            split at hv
            · next h => exact Option.some.inj hv ▸ h
            · exact absurd hv (by simp)

/-- Witness for the amended C10 theorem: three failing attempts (HTTP
error, timeout, decode failure) make `fetchAddressStat` return `null`. -/
theorem fetchAddressStat_error_handling_witness :
    fetchAddressStatModel [.httpError 500, .timeout, .decodeFailure] = none :=
  (fetchAddressStat_error_handling [.httpError 500, .timeout, .decodeFailure]).1 rfl

/-!
Claim C6 — finiteness of `computePerformanceScore`.
-/

theorem JsNum.max_fin (a b : ℚ) : JsNum.max (.fin a) (.fin b) = .fin (Max.max a b) := by
  simp only [JsNum.max, JsNum.lt, decide_eq_true_eq]
  split
  · next h => exact congrArg _ (max_eq_right h.le).symm
  · next h => exact congrArg _ (max_eq_left (not_lt.mp h)).symm

theorem JsNum.min_fin (a b : ℚ) : JsNum.min (.fin a) (.fin b) = .fin (Min.min a b) := by
  simp only [JsNum.min, JsNum.lt, decide_eq_true_eq]
  split
  · next h => exact congrArg _ (min_eq_right h.le).symm
  · next h => exact congrArg _ (min_eq_left (not_lt.mp h)).symm

theorem JsNum.mul_fin_isFinite (w : ℚ) (x : JsNum) (hx : x.isFinite = true) :
    ((JsNum.fin w).mul x).isFinite = true := by
  obtain ⟨q, rfl⟩ := JsNum.isFinite_iff.mp hx
  rfl

/-- The composite score is guarded by `Number.isFinite` in every branch of
`computePerformanceScore`, so it is finite for every input. -/
theorem computePerformanceScore_score_finite (ops : RealOps) (stats : AccountStats)
    (params : ScoringParams) :
    (computePerformanceScore ops stats params).score.isFinite = true := by
  unfold computePerformanceScore
  split
  · rfl
  split
  · rfl
  split
  · rfl
  dsimp only
  split
  · rfl
  · dsimp only
    split
    · next h => exact h
    · rfl

/-- `computeNormalizedPnl` yields a finite value on finite input (for a
reference above 1, as the default 100000 is). -/
theorem computeNormalizedPnl_finite (ops : RealOps) (p : JsNum)
    (hp : p.isFinite = true) (ref : ℚ) (href : 1 < ref) :
    (computeNormalizedPnl ops p ref).isFinite = true := by
  obtain ⟨q, rfl⟩ := JsNum.isFinite_iff.mp hp
  unfold computeNormalizedPnl
  by_cases hq : q ≤ 0
  · simp [JsNum.le, hq, JsNum.isFinite]
  · push_neg at hq
    have h1 : (0:ℚ) < q + 1 := by linarith
    have h2 : (0:ℚ) < ref := by linarith
    have h3 : ops.log10Q ref ≠ 0 := ne_of_gt (ops.log10Q_pos ref href)
    simp only [JsNum.le, decide_eq_true_eq, hq.not_le, if_false, JsNum.add, jsLog10,
      if_pos h1, if_pos h2, JsNum.div, if_neg h3, JsNum.max_fin, JsNum.min_fin]
    rfl

/-- `computeTradeFreqScore` yields a finite value whenever the Gaussian's
denominator is non-zero (true of the default `tradeSigma = 150`). -/
theorem computeTradeFreqScore_finite (ops : RealOps) (t opt sigma thr : ℚ)
    (hs : ¬ 2 * sigma * sigma = 0) :
    (computeTradeFreqScore ops t opt sigma thr).isFinite = true := by
  unfold computeTradeFreqScore
  split
  · rfl
  · simp only [JsNum.neg, JsNum.div, if_neg hs, jsExp]
    split_ifs <;> rfl

/-- A well-behaved concrete account used to instantiate the amended C6
theorem. -/
def sampleStats : AccountStats := ⟨.fin 50000, .fin 80, .fin 56, .fin 24, none⟩

/-- An account whose `realizedPnl` is NaN (the scoring module validates
the trade counts but not `realizedPnl`). -/
def nanPnlStats : AccountStats := ⟨.nan, .fin 0, .fin 0, .fin 0, none⟩

/-- Claim C6, counterexample: on an `AccountStats` whose `realizedPnl` is
NaN, `computePerformanceScore` returns details whose `normalizedPnl` (and
weighted pnl component) is NaN — the non-finite intermediate is not
degraded to 0 in the detail fields (only the composite score is). -/
theorem computePerformanceScore_nan_detail :
    (computePerformanceScore ratOps nanPnlStats DEFAULT_SCORING_PARAMS).details.normalizedPnl
      = .nan ∧
    (computePerformanceScore ratOps nanPnlStats
      DEFAULT_SCORING_PARAMS).details.weightedComponents.pnl = .nan ∧
    (computePerformanceScore ratOps nanPnlStats DEFAULT_SCORING_PARAMS).score = .fin 0 ∧
    JsNum.nan.isFinite = false := by
  have h : computePerformanceScore ratOps nanPnlStats DEFAULT_SCORING_PARAMS =
      { score := .fin 0, filtered := false, filterReason := none
        details := ⟨0, 0, 0, 1/2, .nan, .fin 0, ⟨0, (30/100) * (1/2), .nan, .fin 0⟩⟩ } := by
    norm_num [computePerformanceScore, nanPnlStats, DEFAULT_SCORING_PARAMS,
      computeSmoothOrZero, computeAdjustedWinRate, computeNormalizedPnl,
      computeTradeFreqScore, jsLog10, ratOps, JsNum.isFinite, JsNum.lt, JsNum.le,
      JsNum.add, JsNum.div, JsNum.mul, JsNum.max, JsNum.min, JsNum.toQ]
  refine ⟨by rw [h], by rw [h], by rw [h], rfl⟩

/-- Claim C6, amended: for every input `AccountStats` whose `realizedPnl`
is finite, `computePerformanceScore` with the default parameters returns a
finite score and finite detail fields.  (The path-shape quantities —
`smoothPnlScore`, `maxDrawdown`, `ulcerIndex`, `upFraction` — and the
win-rate quantities are computed from validated finite inputs and are
rational by construction in the model; the fields that can carry JS
specials are the score, `normalizedPnl`, `tradeFreqScore` and the two
corresponding weighted components, all shown finite here.  Without the
`realizedPnl` hypothesis the counterexample shows `normalizedPnl` can be
NaN; the composite score itself is finite unconditionally.) -/
theorem computePerformanceScore_finite_details (ops : RealOps) (stats : AccountStats)
    (h : stats.realizedPnl.isFinite = true) :
    (computePerformanceScore ops stats DEFAULT_SCORING_PARAMS).score.isFinite = true ∧
    (computePerformanceScore ops stats
      DEFAULT_SCORING_PARAMS).details.normalizedPnl.isFinite = true ∧
    (computePerformanceScore ops stats
      DEFAULT_SCORING_PARAMS).details.tradeFreqScore.isFinite = true ∧
    (computePerformanceScore ops stats
      DEFAULT_SCORING_PARAMS).details.weightedComponents.pnl.isFinite = true ∧
    (computePerformanceScore ops stats
      DEFAULT_SCORING_PARAMS).details.weightedComponents.tradeFreq.isFinite = true := by
  refine ⟨computePerformanceScore_score_finite ops stats _, ?_⟩
  have hn : (computeNormalizedPnl ops stats.realizedPnl
      DEFAULT_SCORING_PARAMS.pnlReference).isFinite = true :=
    computeNormalizedPnl_finite ops _ h _ (by norm_num [DEFAULT_SCORING_PARAMS])
  have htf : (computeTradeFreqScore ops stats.numTrades.toQ
      DEFAULT_SCORING_PARAMS.optimalTrades DEFAULT_SCORING_PARAMS.tradeSigma
      DEFAULT_SCORING_PARAMS.scalpingThreshold).isFinite = true :=
    computeTradeFreqScore_finite ops _ _ _ _ (by norm_num [DEFAULT_SCORING_PARAMS])
  unfold computePerformanceScore
  split
  · exact ⟨rfl, rfl, rfl, rfl⟩
  split
  · exact ⟨rfl, rfl, rfl, rfl⟩
  split
  · exact ⟨rfl, rfl, rfl, rfl⟩
  dsimp only
  split
  · exact ⟨rfl, rfl, rfl, rfl⟩
  · exact ⟨hn, htf, JsNum.mul_fin_isFinite _ _ hn, JsNum.mul_fin_isFinite _ _ htf⟩

/-- Witness for the amended C6 theorem at a concrete account. -/
theorem computePerformanceScore_finite_details_witness :
    sampleStats.realizedPnl.isFinite = true ∧
    ((computePerformanceScore ratOps sampleStats DEFAULT_SCORING_PARAMS).score.isFinite = true ∧
    (computePerformanceScore ratOps sampleStats
      DEFAULT_SCORING_PARAMS).details.normalizedPnl.isFinite = true ∧
    (computePerformanceScore ratOps sampleStats
      DEFAULT_SCORING_PARAMS).details.tradeFreqScore.isFinite = true ∧
    (computePerformanceScore ratOps sampleStats
      DEFAULT_SCORING_PARAMS).details.weightedComponents.pnl.isFinite = true ∧
    (computePerformanceScore ratOps sampleStats
      DEFAULT_SCORING_PARAMS).details.weightedComponents.tradeFreq.isFinite = true) :=
  ⟨by decide, computePerformanceScore_finite_details ratOps sampleStats (by decide)⟩

/-!
Structural facts about `scoreEntries`.
-/

theorem mapEntry_score_finite (ops : RealOps) (params : ScoringParams) (hard : ℚ)
    (e : LeaderboardRawEntry) :
    (mapEntry ops params hard e).score.isFinite = true := by
  unfold mapEntry
  dsimp only
  split
  · rfl
  split
  · rfl
  · exact computePerformanceScore_score_finite ops _ params

/-- The `Number.isFinite(score) || filtered` filter on the mapped entries
keeps everything: the composite score is guarded finite in every branch. -/
theorem scoreBase_eq_map (ops : RealOps) (params : ScoringParams) (hard : ℚ)
    (entries : List LeaderboardRawEntry) :
    scoreBase ops params hard entries = entries.map (mapEntry ops params hard) := by
  unfold scoreBase
  rw [List.filter_eq_self]
  intro e he
  obtain ⟨x, _, rfl⟩ := List.mem_map.mp he
  simp [mapEntry_score_finite]

theorem assignRankWeight_length (K : ℕ) (T : JsNum) (l : List RankedEntry) :
    ∀ i, (assignRankWeight K T i l).length = l.length := by
  induction l with
  | nil => intro i; rfl
  | cons e rest ih => intro i; simp [assignRankWeight, ih]

theorem assignRankWeight_forall_filtered {K : ℕ} {T : JsNum} {l : List RankedEntry}
    {P : Bool → Prop} (hp : ∀ e ∈ l, P e.filtered) :
    ∀ i, ∀ x ∈ assignRankWeight K T i l, P x.filtered := by
  induction l with
  | nil => intro i x hx; cases hx
  | cons e rest ih =>
    intro i x hx
    rcases List.mem_cons.mp hx with rfl | hx
    · exact hp e (List.mem_cons_self e rest)
    · exact ih (fun e' he' => hp e' (List.mem_cons_of_mem _ he')) (i + 1) x hx

theorem assignRankWeight_any_filtered (K : ℕ) (T : JsNum) (l : List RankedEntry) :
    ∀ i, (assignRankWeight K T i l).any (fun e => e.filtered) =
      l.any (fun e => e.filtered) := by
  induction l with
  | nil => intro i; rfl
  | cons e rest ih => intro i; simp [assignRankWeight, ih]

theorem reweight_forall_filtered {K : ℕ} {S : JsNum} {l : List RankedEntry}
    {P : Bool → Prop} (hp : ∀ e ∈ l, P e.filtered) :
    ∀ i, ∀ x ∈ reweight K S i l, P x.filtered := by
  induction l with
  | nil => intro i x hx; cases hx
  | cons e rest ih =>
    intro i x hx
    rcases List.mem_cons.mp hx with rfl | hx
    · exact hp e (List.mem_cons_self e rest)
    · exact ih (fun e' he' => hp e' (List.mem_cons_of_mem _ he')) (i + 1) x hx

theorem sortByScoreDesc_length (l : List RankedEntry) :
    (sortByScoreDesc l).length = l.length :=
  (List.perm_insertionSort _ l).length_eq

theorem sortByScoreDesc_mem {l : List RankedEntry} {x : RankedEntry} :
    x ∈ sortByScoreDesc l ↔ x ∈ l :=
  (List.perm_insertionSort _ l).mem_iff

theorem sortByScoreDesc_any (l : List RankedEntry) (p : RankedEntry → Bool) :
    (sortByScoreDesc l).any p = l.any p := by
  apply Bool.eq_iff_iff.mpr
  simp only [List.any_eq_true]
  exact ⟨fun ⟨x, hx, hp⟩ => ⟨x, (List.perm_insertionSort _ l).mem_iff.mp hx, hp⟩,
    fun ⟨x, hx, hp⟩ => ⟨x, (List.perm_insertionSort _ l).mem_iff.mpr hx, hp⟩⟩

/-- Every element of `scoreSurvivors` has `filtered = false` (it passed
the hard-filter drop). -/
theorem scoreSurvivors_not_filtered (ops : RealOps) (params : ScoringParams) (hard : ℚ)
    (entries : List LeaderboardRawEntry) :
    ∀ e ∈ scoreSurvivors ops params hard entries, e.filtered = false := by
  intro e he
  unfold scoreSurvivors at he
  have h1 := (List.mem_filter.mp he).1
  have h2 := (List.mem_filter.mp h1).2
  simpa using h2

/-- When the surviving set is non-empty, `scoreEntries` is the ranking of
the survivors, hence contains no filtered entry. -/
theorem scoreEntries_no_filtered (ops : RealOps) (params : ScoringParams) (hard : ℚ)
    (K : ℕ) (raws : List LeaderboardRawEntry)
    (h : scoreSurvivors ops params hard raws ≠ []) :
    ∀ x ∈ scoreEntries ops params hard K raws, x.filtered = false := by
  unfold scoreEntries
  dsimp only
  have hne : (scoreSurvivors ops params hard raws).isEmpty = false := by
    simpa [List.isEmpty_iff] using h
  rw [hne]
  simp only [Bool.false_eq_true, if_false]
  exact assignRankWeight_forall_filtered (P := fun b => b = false)
    (fun e he => scoreSurvivors_not_filtered ops params hard raws e
      (sortByScoreDesc_mem.mp he)) 0

/-- When the surviving set is empty, `scoreEntries` ranks and weights the
whole pre-drop list. -/
theorem scoreEntries_fallback_eq (ops : RealOps) (params : ScoringParams) (hard : ℚ)
    (K : ℕ) (raws : List LeaderboardRawEntry)
    (h : scoreSurvivors ops params hard raws = []) :
    scoreEntries ops params hard K raws =
      assignRankWeight K
        (totalScoreOf K (sortByScoreDesc (scoreBase ops params hard raws))) 0
        (sortByScoreDesc (scoreBase ops params hard raws)) := by
  unfold scoreEntries
  dsimp only
  rw [h]
  rfl

/-!
Concrete raw entries used to instantiate the claims about `scoreEntries`.
-/

/-- A trader with 300 executed orders: hard-filtered as a scalper. -/
def scalperRaw : LeaderboardRawEntry :=
  { address := "0xscalper", winRate := some (.fin (65/100)), executedOrders := some (.fin 300)
    realizedPnl := some (.fin 1000), remark := none, labels := none, pnlList := none
    maxDrawdown := none, stats := none }

/-- A trader with a perfect win rate over 50 trades: dropped as suspicious
but not hard-filtered. -/
def suspiciousRaw : LeaderboardRawEntry :=
  { address := "0xperfect", winRate := some (.fin 1), executedOrders := some (.fin 50)
    realizedPnl := some (.fin 0), remark := none, labels := none, pnlList := none
    maxDrawdown := none, stats := none }

/-- An unremarkable trader that survives every drop. -/
def steadyRaw : LeaderboardRawEntry :=
  { address := "0xsteady", winRate := some (.fin (1/2)), executedOrders := some (.fin 50)
    realizedPnl := some (.fin 0), remark := none, labels := none, pnlList := none
    maxDrawdown := none, stats := none }

/-- A trader whose API stats report a 90% max drawdown. -/
def highMddRaw : LeaderboardRawEntry :=
  { address := "0xmdd", winRate := some (.fin (1/2)), executedOrders := some (.fin 50)
    realizedPnl := some (.fin 0), remark := none, labels := none, pnlList := none
    maxDrawdown := none, stats := some ⟨none, none, none, none, none, some (.fin (9/10))⟩ }

/-!
Claim C5 — fallback to the pre-drop list.
-/

/-- Claim C5: if, after dropping hard-filtered entries and entries with
`winRate ≥ 0.999 ∧ executedOrders ≥ 10`, the surviving set is empty,
`scoreEntries` returns the entire pre-drop list, sorted, ranked and
weighted (in particular of the full input length); consequently for every
non-empty input list the output of `scoreEntries` is non-empty. -/
theorem scoreEntries_fallback_nonempty (ops : RealOps) (params : ScoringParams)
    (hard : ℚ) (K : ℕ) (raws : List LeaderboardRawEntry) :
    (scoreSurvivors ops params hard raws = [] →
      scoreEntries ops params hard K raws =
        assignRankWeight K
          (totalScoreOf K (sortByScoreDesc (scoreBase ops params hard raws))) 0
          (sortByScoreDesc (scoreBase ops params hard raws)) ∧
      (scoreEntries ops params hard K raws).length = raws.length) ∧
    (raws ≠ [] → scoreEntries ops params hard K raws ≠ []) := by
  constructor
  · intro h
    refine ⟨scoreEntries_fallback_eq ops params hard K raws h, ?_⟩
    rw [scoreEntries_fallback_eq ops params hard K raws h, assignRankWeight_length,
      sortByScoreDesc_length, scoreBase_eq_map, List.length_map]
  · intro hraws
    by_cases h : scoreSurvivors ops params hard raws = []
    · have hlen : (scoreEntries ops params hard K raws).length = raws.length := by
        rw [scoreEntries_fallback_eq ops params hard K raws h, assignRankWeight_length,
          sortByScoreDesc_length, scoreBase_eq_map, List.length_map]
      intro hcon
      rw [hcon] at hlen
      exact hraws (List.length_eq_zero.mp hlen.symm)
    · have hne : (scoreSurvivors ops params hard raws).isEmpty = false := by
        simpa [List.isEmpty_iff] using h
      unfold scoreEntries
      dsimp only
      rw [hne]
      simp only [Bool.false_eq_true, if_false]
      intro hcon
      have hlen := congrArg List.length hcon
      rw [assignRankWeight_length, sortByScoreDesc_length] at hlen
      exact h (List.length_eq_zero.mp hlen)

/-- Witness for the C5 theorem: a single hard-filtered scalper empties the
surviving set, and the output still has one (ranked, weighted) entry. -/
theorem scoreEntries_fallback_nonempty_witness :
    scoreSurvivors ratOps DEFAULT_SCORING_PARAMS 200 [scalperRaw] = [] ∧
    (scoreEntries ratOps DEFAULT_SCORING_PARAMS 200 12 [scalperRaw]).length = 1 ∧
    scoreEntries ratOps DEFAULT_SCORING_PARAMS 200 12 [scalperRaw] ≠ [] := by
  have hs : scoreSurvivors ratOps DEFAULT_SCORING_PARAMS 200 [scalperRaw] = [] := by
    norm_num [scoreSurvivors, scoreBase_eq_map, mapEntry, apiMddOf, numOr0, jsClamp,
      normalizeAddress, scalperRaw, JsNum.lt, JsNum.le, JsNum.isFinite, JsNum.max,
      JsNum.min, Option.getD, Option.orElse, DEFAULT_SCORING_PARAMS]
  have hmain := scoreEntries_fallback_nonempty ratOps DEFAULT_SCORING_PARAMS 200 12 [scalperRaw]
  exact ⟨hs, (hmain.1 hs).2, hmain.2 (by simp)⟩

/-!
Claim C3 — filtered entries after the phase-2 re-filter.
-/

/-- Claim C3, counterexample: when every candidate fails the hard filters,
the phase-1 fallback returns the pre-drop list, and an entry filtered for
`scalping_penalty` (whose `statMaxDrawdown` does not exceed the limit)
survives the phase-2 re-filter — a `filtered = true` entry is handed to
persistence. -/
theorem refreshRefilter_keeps_filtered_fallback :
    ((refreshRefilter (80/100) 12
      (scoreEntries ratOps DEFAULT_SCORING_PARAMS 200 12 [scalperRaw])).any
        (fun e => e.filtered)) = true := by
  have hs : scoreSurvivors ratOps DEFAULT_SCORING_PARAMS 200 [scalperRaw] = [] := by
    norm_num [scoreSurvivors, scoreBase_eq_map, mapEntry, apiMddOf, numOr0, jsClamp,
      normalizeAddress, scalperRaw, JsNum.lt, JsNum.le, JsNum.isFinite, JsNum.max,
      JsNum.min, Option.getD, Option.orElse, DEFAULT_SCORING_PARAMS]
  rw [scoreEntries_fallback_eq ratOps DEFAULT_SCORING_PARAMS 200 12 [scalperRaw] hs]
  norm_num [scoreBase_eq_map, mapEntry, apiMddOf, numOr0, jsClamp, normalizeAddress,
    scalperRaw, JsNum.lt, JsNum.le, JsNum.isFinite, JsNum.max, JsNum.min, JsNum.add,
    Option.getD, Option.orElse, DEFAULT_SCORING_PARAMS, sortByScoreDesc,
    List.insertionSort, List.orderedInsert, totalScoreOf, assignRankWeight,
    refreshRefilter, refilterSurvivors, reweight]

/-- Claim C3, amended: when the phase-1 fallback does not trigger (some
entry survives the drops), every entry handed to persistence after the
phase-2 re-filter has `filtered = false`; in the fallback case the phase-2
re-filter removes the entries whose `statMaxDrawdown` exceeds the limit,
but entries filtered for `scalping_penalty` survive with `filtered = true`
(the counterexample). -/
theorem refreshRefilter_no_filtered (ops : RealOps) (params : ScoringParams)
    (hard lim : ℚ) (K K2 : ℕ) (raws : List LeaderboardRawEntry)
    (h : scoreSurvivors ops params hard raws ≠ []) :
    ∀ x ∈ refreshRefilter lim K2 (scoreEntries ops params hard K raws),
      x.filtered = false := by
  have h1 := scoreEntries_no_filtered ops params hard K raws h
  have hsurv : ∀ e ∈ refilterSurvivors lim (scoreEntries ops params hard K raws),
      e.filtered = false := by
    intro e he
    simp only [refilterSurvivors, List.mem_filter] at he
    exact h1 e he.1
  intro x hx
  unfold refreshRefilter at hx
  dsimp only at hx
  split at hx
  · exact reweight_forall_filtered (P := fun b => b = false) hsurv 0 x hx
  · exact hsurv x hx

/-- Witness for the amended C3 theorem: with a single surviving trader the
re-filtered list contains no filtered entry. -/
theorem refreshRefilter_no_filtered_witness :
    scoreSurvivors ratOps DEFAULT_SCORING_PARAMS 200 [steadyRaw] ≠ [] ∧
    ∀ x ∈ refreshRefilter (80/100) 12
      (scoreEntries ratOps DEFAULT_SCORING_PARAMS 200 12 [steadyRaw]),
      x.filtered = false := by
  have hs : scoreSurvivors ratOps DEFAULT_SCORING_PARAMS 200 [steadyRaw] ≠ [] := by
    norm_num [scoreSurvivors, scoreBase_eq_map, mapEntry, apiMddOf, numOr0, jsClamp,
      normalizeAddress, steadyRaw, JsNum.lt, JsNum.le, JsNum.isFinite, JsNum.max,
      JsNum.min, JsNum.add, JsNum.sub, JsNum.neg, JsNum.mul, JsNum.round, JsNum.toQ,
      Option.getD, Option.orElse, computePerformanceScore, computeSmoothOrZero,
      DEFAULT_SCORING_PARAMS]
  exact ⟨hs, refreshRefilter_no_filtered ratOps DEFAULT_SCORING_PARAMS 200 (80/100)
    12 12 [steadyRaw] hs⟩

/-!
Claim C4 — the two hard filters of `scoreEntries`.
-/

/-- Claim C4, amended: an entry whose `apiMaxDrawdown` exceeds the limit
maps to a filtered entry with reason `max_drawdown_exceeded`, score 0 and
`statMaxDrawdown = apiMaxDrawdown`; otherwise, an entry whose
`executedOrders` exceeds `maxTradesHardLimit` maps to a filtered entry
with reason `scalping_penalty`; and filtered entries are excluded from the
returned list whenever some entry survives the drops — the claim's
exception "unless every entry was filtered" is amended to "unless every
entry was filtered *or dropped as suspicious*" (the fallback triggers
exactly when the surviving set, which also excludes suspicious
perfect-record entries, is empty; see the counterexample). -/
theorem mapEntry_hard_filters (ops : RealOps) (params : ScoringParams) (hard : ℚ)
    (K : ℕ) (raws : List LeaderboardRawEntry) (e : LeaderboardRawEntry) :
    (JsNum.lt (.fin params.maxDrawdownLimit) (apiMddOf e) = true →
      (mapEntry ops params hard e).filtered = true ∧
      (mapEntry ops params hard e).filterReason = some .max_drawdown_exceeded ∧
      (mapEntry ops params hard e).score = .fin 0 ∧
      (mapEntry ops params hard e).statMaxDrawdown = some (apiMddOf e)) ∧
    (JsNum.lt (.fin params.maxDrawdownLimit) (apiMddOf e) = false →
      JsNum.lt (.fin hard) (numOr0 e.executedOrders) = true →
      (mapEntry ops params hard e).filtered = true ∧
      (mapEntry ops params hard e).filterReason = some .scalping_penalty ∧
      (mapEntry ops params hard e).score = .fin 0 ∧
      (mapEntry ops params hard e).statMaxDrawdown = some (apiMddOf e)) ∧
    (scoreSurvivors ops params hard raws ≠ [] →
      ∀ x ∈ scoreEntries ops params hard K raws, x.filtered = false) := by
  refine ⟨?_, ?_, scoreEntries_no_filtered ops params hard K raws⟩
  · intro h1
    simp [mapEntry, h1]
  · intro h1 h2
    simp [mapEntry, h1, h2]

/-- Claim C4, counterexample to the exception as stated: with one
hard-filtered scalper and one suspicious (but unfiltered) perfect-record
trader, not every entry was filtered, yet the fallback triggers and the
filtered scalper appears in the returned ranked list. -/
theorem scoreEntries_fallback_not_all_filtered :
    ((scoreEntries ratOps DEFAULT_SCORING_PARAMS 200 12
      [scalperRaw, suspiciousRaw]).any (fun e => e.filtered)) = true ∧
    ((scoreBase ratOps DEFAULT_SCORING_PARAMS 200
      [scalperRaw, suspiciousRaw]).all (fun e => e.filtered)) = false := by
  have hs : scoreSurvivors ratOps DEFAULT_SCORING_PARAMS 200
      [scalperRaw, suspiciousRaw] = [] := by
    norm_num [scoreSurvivors, scoreBase_eq_map, mapEntry, apiMddOf, numOr0, jsClamp,
      normalizeAddress, scalperRaw, suspiciousRaw, JsNum.lt, JsNum.le, JsNum.isFinite,
      JsNum.max, JsNum.min, JsNum.add, JsNum.sub, JsNum.neg, JsNum.mul, JsNum.round,
      JsNum.toQ, Option.getD, Option.orElse, computePerformanceScore, computeSmoothOrZero,
      DEFAULT_SCORING_PARAMS]
  constructor
  · rw [scoreEntries_fallback_eq ratOps DEFAULT_SCORING_PARAMS 200 12
      [scalperRaw, suspiciousRaw] hs, assignRankWeight_any_filtered, sortByScoreDesc_any]
    norm_num [scoreBase_eq_map, mapEntry, apiMddOf, numOr0, jsClamp, normalizeAddress,
      scalperRaw, suspiciousRaw, JsNum.lt, JsNum.le, JsNum.isFinite, JsNum.max,
      JsNum.min, Option.getD, Option.orElse, DEFAULT_SCORING_PARAMS]
  · norm_num [scoreBase_eq_map, mapEntry, apiMddOf, numOr0, jsClamp, normalizeAddress,
      scalperRaw, suspiciousRaw, JsNum.lt, JsNum.le, JsNum.isFinite, JsNum.max,
      JsNum.min, JsNum.add, JsNum.sub, JsNum.neg, JsNum.mul, JsNum.round, JsNum.toQ,
      Option.getD, Option.orElse, computePerformanceScore, computeSmoothOrZero,
      DEFAULT_SCORING_PARAMS]

/-- Witness for the amended C4 theorem: both hard-filter branches fire on
concrete entries, and with a surviving trader no filtered entry is
returned. -/
theorem mapEntry_hard_filters_witness :
    JsNum.lt (.fin DEFAULT_SCORING_PARAMS.maxDrawdownLimit) (apiMddOf highMddRaw) = true ∧
    (mapEntry ratOps DEFAULT_SCORING_PARAMS 200 highMddRaw).filterReason =
      some .max_drawdown_exceeded ∧
    JsNum.lt (.fin 200) (numOr0 scalperRaw.executedOrders) = true ∧
    (mapEntry ratOps DEFAULT_SCORING_PARAMS 200 scalperRaw).filterReason =
      some .scalping_penalty ∧
    scoreSurvivors ratOps DEFAULT_SCORING_PARAMS 200 [steadyRaw] ≠ [] ∧
    ∀ x ∈ scoreEntries ratOps DEFAULT_SCORING_PARAMS 200 12 [steadyRaw],
      x.filtered = false := by
  have hmdd : JsNum.lt (.fin DEFAULT_SCORING_PARAMS.maxDrawdownLimit)
      (apiMddOf highMddRaw) = true := by
    norm_num [apiMddOf, highMddRaw, JsNum.lt, DEFAULT_SCORING_PARAMS, Option.getD,
      Option.orElse]
  have hmdd2 : JsNum.lt (.fin DEFAULT_SCORING_PARAMS.maxDrawdownLimit)
      (apiMddOf scalperRaw) = false := by
    norm_num [apiMddOf, scalperRaw, JsNum.lt, DEFAULT_SCORING_PARAMS, Option.getD,
      Option.orElse]
  have hsc : JsNum.lt (.fin 200) (numOr0 scalperRaw.executedOrders) = true := by
    norm_num [scalperRaw, numOr0, JsNum.lt, Option.getD]
  have hs : scoreSurvivors ratOps DEFAULT_SCORING_PARAMS 200 [steadyRaw] ≠ [] := by
    norm_num [scoreSurvivors, scoreBase_eq_map, mapEntry, apiMddOf, numOr0, jsClamp,
      normalizeAddress, steadyRaw, JsNum.lt, JsNum.le, JsNum.isFinite, JsNum.max,
      JsNum.min, JsNum.add, JsNum.sub, JsNum.neg, JsNum.mul, JsNum.round, JsNum.toQ,
      Option.getD, Option.orElse, computePerformanceScore, computeSmoothOrZero,
      DEFAULT_SCORING_PARAMS]
  have t1 := mapEntry_hard_filters ratOps DEFAULT_SCORING_PARAMS 200 12 [steadyRaw] highMddRaw
  have t2 := mapEntry_hard_filters ratOps DEFAULT_SCORING_PARAMS 200 12 [steadyRaw] scalperRaw
  exact ⟨hmdd, (t1.1 hmdd).2.1, hsc, (t2.2.1 hmdd2 hsc).2.1, hs, t1.2.2 hs⟩

/-!
Weight normalization machinery (claims C1 and C2).
-/

theorem qsum_nonneg_eq_zero_iff (l : List ℚ) (h : ∀ x ∈ l, 0 ≤ x) :
    l.sum = 0 ↔ ∀ x ∈ l, x = 0 := by
  induction l with
  | nil => simp
  | cons a t ih =>
    have ha := h a (List.mem_cons_self a t)
    have ht : ∀ x ∈ t, 0 ≤ x := fun x hx => h x (List.mem_cons_of_mem _ hx)
    have hts : 0 ≤ t.sum := List.sum_nonneg ht
    simp only [List.sum_cons, List.mem_cons]
    constructor
    · intro h0
      have ha0 : a = 0 := by linarith
      have hts0 : t.sum = 0 := by linarith
      intro x hx
      rcases hx with rfl | hx
      · exact ha0
      · exact ((ih ht).mp hts0) x hx
    · intro hall
      rw [hall a (Or.inl rfl), (ih ht).mpr (fun x hx => hall x (Or.inr hx))]
      ring

theorem any_filter_and {α : Type} (l : List α) (p q : α → Bool) :
    (l.filter p).any q = l.any (fun a => p a && q a) := by
  induction l with
  | nil => rfl
  | cons a t ih => by_cases hp : p a <;> simp [List.filter_cons, hp, ih]

theorem foldl_add_max_fin (l : List RankedEntry) :
    ∀ c : ℚ, (∀ e ∈ l, e.score.isFinite = true) →
    l.foldl (fun (s : JsNum) e => s.add (JsNum.max e.score (.fin 0))) (JsNum.fin c) =
      JsNum.fin (c + (l.map (fun e => Max.max e.score.toQ 0)).sum) := by
  induction l with
  | nil => intro c _; simp
  | cons e rest ih =>
    intro c hf
    obtain ⟨q, hq⟩ := JsNum.isFinite_iff.mp (hf e (List.mem_cons_self e rest))
    rw [List.foldl_cons, hq, JsNum.max_fin, JsNum.add_fin,
      ih _ (fun x hx => hf x (List.mem_cons_of_mem _ hx))]
    simp [hq, JsNum.toQ, add_assoc]

theorem foldl_add_score_fin (l : List RankedEntry) :
    ∀ c : ℚ, (∀ e ∈ l, e.score.isFinite = true) →
    l.foldl (fun (s : JsNum) e => s.add e.score) (JsNum.fin c) =
      JsNum.fin (c + (l.map (fun e => e.score.toQ)).sum) := by
  induction l with
  | nil => intro c _; simp
  | cons e rest ih =>
    intro c hf
    obtain ⟨q, hq⟩ := JsNum.isFinite_iff.mp (hf e (List.mem_cons_self e rest))
    rw [List.foldl_cons, hq, JsNum.add_fin,
      ih _ (fun x hx => hf x (List.mem_cons_of_mem _ hx))]
    simp [hq, JsNum.toQ, add_assoc]

/-- The clamped top-`K` score sum of `totalScoreOf`, written over the
rationals.  The `|| 1` makes the total 1 exactly when the sum is 0. -/
theorem totalScoreOf_eq (K : ℕ) (sorted : List RankedEntry)
    (hf : ∀ e ∈ sorted, e.score.isFinite = true) :
    totalScoreOf K sorted =
      .fin (if ((sorted.take K).map (fun e => Max.max e.score.toQ 0)).sum = 0 then 1
            else ((sorted.take K).map (fun e => Max.max e.score.toQ 0)).sum) := by
  unfold totalScoreOf
  dsimp only
  rw [foldl_add_max_fin _ 0 (fun e he => hf e (List.mem_of_mem_take he))]
  simp only [zero_add]
  by_cases h : ((sorted.take K).map (fun e => Max.max e.score.toQ 0)).sum = 0
  · rw [if_pos (Or.inl (by rw [h])), if_pos h]
  · have hcond : ¬ (JsNum.fin (((sorted.take K).map
        (fun e => Max.max e.score.toQ 0)).sum) = JsNum.fin 0 ∨
        JsNum.fin (((sorted.take K).map
          (fun e => Max.max e.score.toQ 0)).sum) = JsNum.nan) := by
      rintro (hc | hc)
      · exact h (by injection hc)
      · cases hc
    rw [if_neg hcond, if_neg h]

theorem assignRankWeight_filter_le (K : ℕ) (T : JsNum) :
    ∀ (l : List RankedEntry) (i : ℕ),
      (assignRankWeight K T i l).filter (fun e => decide (e.rank ≤ K)) =
        assignRankWeight K T i (l.take (K - i)) := by
  intro l
  induction l with
  | nil => intro i; simp [assignRankWeight]
  | cons e rest ih =>
    intro i
    by_cases hi : i < K
    · have h2 : K - i = (K - (i + 1)) + 1 := by omega
      rw [h2, List.take_succ_cons]
      simp only [assignRankWeight, List.filter_cons]
      have hd : decide (i + 1 ≤ K) = true := by simpa using hi
      simp only [hd]
      simp [ih (i + 1)]
    · have h2 : K - i = 0 := by omega
      have h3 : K - (i + 1) = 0 := by omega
      rw [h2, List.take_zero]
      simp only [assignRankWeight, List.filter_cons]
      have hd : decide (i + 1 ≤ K) = false := by
        simp only [decide_eq_false_iff_not]
        omega
      simp only [hd]
      have := ih (i + 1)
      rw [h3, List.take_zero] at this
      simpa [assignRankWeight] using this

theorem assignRankWeight_weights_take (K : ℕ) (T : JsNum) :
    ∀ (l : List RankedEntry) (i : ℕ), i + l.length ≤ K →
      (assignRankWeight K T i l).map (fun e => e.weight) =
        l.map (fun e => (JsNum.max e.score (.fin 0)).div T) := by
  intro l
  induction l with
  | nil => intro i _; rfl
  | cons e rest ih =>
    intro i hle
    have hi : i < K := by simp at hle; omega
    simp only [assignRankWeight, List.map_cons]
    rw [ih (i + 1) (by simp at hle ⊢; omega)]
    simp [hi]

theorem assignRankWeight_weight_mem (K : ℕ) (T : JsNum) :
    ∀ (l : List RankedEntry) (i : ℕ) (x : RankedEntry),
      x ∈ assignRankWeight K T i l →
      x.weight = .fin 0 ∨
        ∃ e ∈ l.take (K - i), x.weight = (JsNum.max e.score (.fin 0)).div T := by
  intro l
  induction l with
  | nil => intro i x hx; cases hx
  | cons e rest ih =>
    intro i x hx
    rcases List.mem_cons.mp hx with rfl | hx
    · by_cases hi : i < K
      · right
        refine ⟨e, ?_, by simp [hi]⟩
        have h2 : K - i = (K - (i + 1)) + 1 := by omega
        rw [h2, List.take_succ_cons]
        exact List.mem_cons_self e _
      · left; simp [hi]
    · rcases ih (i + 1) x hx with h | ⟨e', he', hw⟩
      · exact Or.inl h
      · right
        refine ⟨e', ?_, hw⟩
        by_cases hi : i < K
        · have h2 : K - i = (K - (i + 1)) + 1 := by omega
          rw [h2, List.take_succ_cons]
          exact List.mem_cons_of_mem _ he'
        · have h3 : K - (i + 1) = 0 := by omega
          rw [h3, List.take_zero] at he'
          cases he'

theorem assignRankWeight_weight_beyond (K : ℕ) (T : JsNum) :
    ∀ (l : List RankedEntry) (i : ℕ) (x : RankedEntry),
      x ∈ assignRankWeight K T i l → K < x.rank → x.weight = .fin 0 := by
  intro l
  induction l with
  | nil => intro i x hx; cases hx
  | cons e rest ih =>
    intro i x hx hr
    rcases List.mem_cons.mp hx with rfl | hx
    · have hi : ¬ i < K := by simp at hr; omega
      simp [hi]
    · exact ih (i + 1) x hx hr

theorem assignRankWeight_map_score (K : ℕ) (T : JsNum) (l : List RankedEntry) :
    ∀ i, (assignRankWeight K T i l).map (fun e => e.score) =
      l.map (fun e => e.score) := by
  induction l with
  | nil => intro i; rfl
  | cons e rest ih => intro i; simp [assignRankWeight, ih]

theorem assignRankWeight_any_score (K : ℕ) (T : JsNum) (l : List RankedEntry)
    (f : JsNum → Bool) :
    ∀ i, (assignRankWeight K T i l).any (fun e => f e.score) =
      l.any (fun e => f e.score) := by
  induction l with
  | nil => intro i; rfl
  | cons e rest ih => intro i; simp [assignRankWeight, ih]

theorem assignRankWeight_weightsQ_take (K : ℕ) (t : ℚ) :
    ∀ (l : List RankedEntry) (i : ℕ), i + l.length ≤ K →
      (assignRankWeight K (.fin t) i l).map (fun e => e.weight.toQ) =
        l.map (fun e => ((JsNum.max e.score (.fin 0)).div (.fin t)).toQ) := by
  intro l
  induction l with
  | nil => intro i _; rfl
  | cons e rest ih =>
    intro i hle
    have hi : i < K := by simp at hle; omega
    simp only [assignRankWeight, List.map_cons]
    rw [ih (i + 1) (by simp at hle ⊢; omega)]
    simp [hi]

/-- The phase-1 rank/weight invariant: for any list of entries with finite
scores, the ranking stage assigns weights in `[0, 1]`, zero weight beyond
rank `selectCount`, and a rank-`≤ selectCount` weight sum of exactly 1
when some top entry has positive score and exactly 0 otherwise. -/
theorem rankWeight_invariant (K : ℕ) (l : List RankedEntry)
    (hf : ∀ e ∈ l, e.score.isFinite = true) :
    (∀ x ∈ assignRankWeight K (totalScoreOf K l) 0 l,
        x.weight.isFinite = true ∧ 0 ≤ x.weight.toQ ∧ x.weight.toQ ≤ 1) ∧
    (((assignRankWeight K (totalScoreOf K l) 0 l).filter
        (fun e => decide (e.rank ≤ K))).map (fun e => e.weight.toQ)).sum =
      (if (assignRankWeight K (totalScoreOf K l) 0 l).any
          (fun e => decide (e.rank ≤ K) && JsNum.lt (.fin 0) e.score) then 1 else 0) ∧
    (∀ x ∈ assignRankWeight K (totalScoreOf K l) 0 l, K < x.rank → x.weight = .fin 0) := by
  have hterm_nonneg : ∀ y ∈ (l.take K).map (fun e => Max.max e.score.toQ 0), 0 ≤ y := by
    intro y hy
    obtain ⟨e, _, rfl⟩ := List.mem_map.mp hy
    exact le_max_right _ _
  have hsQ_nonneg : 0 ≤ ((l.take K).map (fun e => Max.max e.score.toQ 0)).sum :=
    List.sum_nonneg hterm_nonneg
  have hT : totalScoreOf K l =
      .fin (if ((l.take K).map (fun e => Max.max e.score.toQ 0)).sum = 0 then 1
            else ((l.take K).map (fun e => Max.max e.score.toQ 0)).sum) :=
    totalScoreOf_eq K l hf
  set sQ := ((l.take K).map (fun e => Max.max e.score.toQ 0)).sum with hsQ
  set t : ℚ := if sQ = 0 then 1 else sQ with ht
  have ht_pos : 0 < t := by
    rw [ht]
    split
    · norm_num
    · next h => exact lt_of_le_of_ne hsQ_nonneg (Ne.symm h)
  have ht_ne : t ≠ 0 := ne_of_gt ht_pos
  have hmax_le : ∀ e ∈ l.take K, Max.max e.score.toQ 0 ≤ t := by
    intro e he
    have h1 : Max.max e.score.toQ 0 ≤ sQ :=
      List.single_le_sum hterm_nonneg _ (List.mem_map_of_mem _ he)
    rw [ht]
    split
    · next h0 =>
      rw [h0] at h1
      linarith
    · exact h1
  rw [hT]
  refine ⟨?_, ?_, ?_⟩
  · intro x hx
    rcases assignRankWeight_weight_mem K (.fin t) l 0 x hx with h0 | ⟨e, he, hw⟩
    · rw [h0]
      exact ⟨rfl, le_refl 0, by norm_num [JsNum.toQ]⟩
    · rw [Nat.sub_zero] at he
      obtain ⟨q, hq⟩ := JsNum.isFinite_iff.mp (hf e (List.mem_of_mem_take he))
      rw [hw, hq, JsNum.max_fin, JsNum.div_fin _ _ ht_ne]
      refine ⟨rfl, ?_, ?_⟩
      · show (0:ℚ) ≤ Max.max q 0 / t
        exact div_nonneg (le_max_right q 0) ht_pos.le
      · show Max.max q 0 / t ≤ 1
        rw [div_le_one ht_pos]
        have hle := hmax_le e he
        rw [hq] at hle
        simpa [JsNum.toQ] using hle
  · have hany : (assignRankWeight K (.fin t) 0 l).any
        (fun e => decide (e.rank ≤ K) && JsNum.lt (.fin 0) e.score) =
        (l.take K).any (fun e => JsNum.lt (.fin 0) e.score) := by
      rw [← any_filter_and, assignRankWeight_filter_le, Nat.sub_zero,
        assignRankWeight_any_score]
    rw [hany, assignRankWeight_filter_le, Nat.sub_zero,
      assignRankWeight_weightsQ_take K t (l.take K) 0
        (by simp)]
    have hpoint : (l.take K).map (fun e => ((JsNum.max e.score (.fin 0)).div (.fin t)).toQ) =
        (l.take K).map (fun e => Max.max e.score.toQ 0 * t⁻¹) := by
      apply List.map_congr_left
      intro e he
      obtain ⟨q, hq⟩ := JsNum.isFinite_iff.mp (hf e (List.mem_of_mem_take he))
      rw [hq, JsNum.max_fin, JsNum.div_fin _ _ ht_ne]
      simp [JsNum.toQ, div_eq_mul_inv]
    rw [hpoint, List.sum_map_mul_right, ← hsQ]
    have hiff : ((l.take K).any (fun e => JsNum.lt (.fin 0) e.score) = true) ↔ sQ ≠ 0 := by
      rw [List.any_eq_true]
      constructor
      · rintro ⟨e, he, hp⟩ h0
        obtain ⟨q, hq⟩ := JsNum.isFinite_iff.mp (hf e (List.mem_of_mem_take he))
        rw [hq] at hp
        have hql : 0 < q := by simpa [JsNum.lt] using hp
        have hz := (qsum_nonneg_eq_zero_iff _ hterm_nonneg).mp h0 _
          (List.mem_map_of_mem _ he)
        rw [hq] at hz
        simp only [JsNum.toQ] at hz
        rw [max_eq_left hql.le] at hz
        exact absurd hz (ne_of_gt hql)
      · intro hne
        by_contra hno
        apply hne
        apply (qsum_nonneg_eq_zero_iff _ hterm_nonneg).mpr
        intro y hy
        obtain ⟨e, he, rfl⟩ := List.mem_map.mp hy
        obtain ⟨q, hq⟩ := JsNum.isFinite_iff.mp (hf e (List.mem_of_mem_take he))
        have hfalse : JsNum.lt (.fin 0) e.score = false := by
          rcases Bool.eq_false_or_eq_true (JsNum.lt (.fin 0) e.score) with hb | hb
          · exact absurd ⟨e, he, hb⟩ hno
          · exact hb
        rw [hq] at hfalse ⊢
        have hq0 : ¬ 0 < q := by simpa [JsNum.lt] using hfalse
        simp only [JsNum.toQ]
        exact max_eq_right (not_lt.mp hq0)
    by_cases h0 : sQ = 0
    · rw [if_neg (fun hc => (hiff.mp hc) h0), h0, zero_mul]
    · rw [if_pos (hiff.mpr h0)]
      have htq : t = sQ := by rw [ht, if_neg h0]
      rw [htq]
      exact mul_inv_cancel₀ h0
  · intro x hx hr
    exact assignRankWeight_weight_beyond K (.fin t) l 0 x hx hr

theorem reweight_length (K : ℕ) (S : JsNum) (l : List RankedEntry) :
    ∀ i, (reweight K S i l).length = l.length := by
  induction l with
  | nil => intro i; rfl
  | cons e rest ih => intro i; simp [reweight, ih]

theorem reweight_map_score (K : ℕ) (S : JsNum) (l : List RankedEntry) :
    ∀ i, (reweight K S i l).map (fun e => e.score) = l.map (fun e => e.score) := by
  induction l with
  | nil => intro i; rfl
  | cons e rest ih => intro i; simp [reweight, ih]

theorem reweight_map_rank_score (K : ℕ) (S : JsNum) (l : List RankedEntry) :
    ∀ i, (reweight K S i l).map (fun e => (e.rank, e.score)) =
      l.map (fun e => (e.rank, e.score)) := by
  induction l with
  | nil => intro i; rfl
  | cons e rest ih => intro i; simp [reweight, ih]

theorem reweight_drop_weight (K : ℕ) (S : JsNum) :
    ∀ (l : List RankedEntry) (i : ℕ) (x : RankedEntry),
      x ∈ (reweight K S i l).drop (K - i) → x.weight = .fin 0 := by
  intro l
  induction l with
  | nil => intro i x hx; simp [reweight] at hx
  | cons e rest ih =>
    intro i x hx
    by_cases hi : i < K
    · have h2 : K - i = (K - (i + 1)) + 1 := by omega
      rw [reweight, h2, List.drop_succ_cons] at hx
      exact ih (i + 1) x hx
    · rw [reweight, Nat.sub_eq_zero_of_le (by omega), List.drop_zero] at hx
      rcases List.mem_cons.mp hx with rfl | hx
      · simp [hi]
      · have h3 : K - (i + 1) = 0 := by omega
        exact ih (i + 1) x (by rw [h3, List.drop_zero]; exact hx)

theorem reweight_weight_mem (K : ℕ) (S : JsNum) :
    ∀ (l : List RankedEntry) (i : ℕ) (x : RankedEntry), x ∈ reweight K S i l →
      x.weight = .fin 0 ∨ (JsNum.lt (.fin 0) S = true ∧
        ∃ e ∈ l.take (K - i), x.weight = e.score.div S) := by
  intro l
  induction l with
  | nil => intro i x hx; cases hx
  | cons e rest ih =>
    intro i x hx
    rcases List.mem_cons.mp hx with rfl | hx
    · by_cases hc : i < K ∧ JsNum.lt (.fin 0) S = true
      · right
        refine ⟨hc.2, e, ?_, by simp [hc]⟩
        have h2 : K - i = (K - (i + 1)) + 1 := by omega
        rw [h2, List.take_succ_cons]
        exact List.mem_cons_self e _
      · left; simp [hc]
    · rcases ih (i + 1) x hx with h | ⟨hS, e', he', hw⟩
      · exact Or.inl h
      · right
        refine ⟨hS, e', ?_, hw⟩
        by_cases hi : i < K
        · have h2 : K - i = (K - (i + 1)) + 1 := by omega
          rw [h2, List.take_succ_cons]
          exact List.mem_cons_of_mem _ he'
        · have h3 : K - (i + 1) = 0 := by omega
          rw [h3, List.take_zero] at he'
          cases he'

theorem reweight_take_weightsQ (K : ℕ) (sQ : ℚ) :
    ∀ (l : List RankedEntry) (i : ℕ),
      ((reweight K (.fin sQ) i l).take (K - i)).map (fun e => e.weight.toQ) =
        (l.take (K - i)).map (fun e =>
          if 0 < sQ then (e.score.div (.fin sQ)).toQ else 0) := by
  intro l
  induction l with
  | nil => intro i; simp [reweight]
  | cons e rest ih =>
    intro i
    by_cases hi : i < K
    · have h2 : K - i = (K - (i + 1)) + 1 := by omega
      rw [h2]
      simp only [reweight, List.take_succ_cons, List.map_cons]
      rw [ih (i + 1)]
      congr 1
      by_cases hs : 0 < sQ
      · have hb : JsNum.lt (.fin 0) (.fin sQ) = true := by simpa [JsNum.lt] using hs
        simp [hi, hb, hs]
      · have hb : JsNum.lt (.fin 0) (.fin sQ) = false := by simpa [JsNum.lt] using hs
        simp [hi, hb, hs, JsNum.toQ]
    · rw [Nat.sub_eq_zero_of_le (by omega)]
      simp

/-- The phase-2 weight invariant: when the re-filter removed at least one
entry, the recomputed weights are positional — the first `selectCount`
surviving positions share weight `score / sumScores` summing to 1 when the
sum is positive, and every other weight is 0. -/
theorem refilter_weight_invariant (lim : ℚ) (K : ℕ) (es : List RankedEntry)
    (hes : ∀ e ∈ es, e.score.isFinite = true ∧ 0 ≤ e.score.toQ)
    (hsh : (refilterSurvivors lim es).length < es.length) :
    (∀ x ∈ refreshRefilter lim K es,
        x.weight.isFinite = true ∧ 0 ≤ x.weight.toQ ∧ x.weight.toQ ≤ 1) ∧
    (((refreshRefilter lim K es).take K).map (fun e => e.weight.toQ)).sum =
      (if ((refreshRefilter lim K es).take K).any
          (fun e => JsNum.lt (.fin 0) e.score) then 1 else 0) ∧
    (∀ x ∈ (refreshRefilter lim K es).drop K, x.weight = .fin 0) := by
  have hsurv : ∀ e ∈ refilterSurvivors lim es,
      e.score.isFinite = true ∧ 0 ≤ e.score.toQ := by
    intro e he
    simp only [refilterSurvivors, List.mem_filter] at he
    exact hes e he.1
  have hterm_nonneg : ∀ y ∈ ((refilterSurvivors lim es).take K).map
      (fun e => e.score.toQ), 0 ≤ y := by
    intro y hy
    obtain ⟨e, he, rfl⟩ := List.mem_map.mp hy
    exact (hsurv e (List.mem_of_mem_take he)).2
  set sQ2 : ℚ := (((refilterSurvivors lim es).take K).map (fun e => e.score.toQ)).sum
    with hsQ2
  have hsQ2_nonneg : 0 ≤ sQ2 := List.sum_nonneg hterm_nonneg
  have hout : refreshRefilter lim K es =
      reweight K (.fin sQ2) 0 (refilterSurvivors lim es) := by
    unfold refreshRefilter
    dsimp only
    rw [if_pos hsh]
    congr 1
    rw [foldl_add_score_fin ((refilterSurvivors lim es).take K) 0
      (fun e he => (hsurv e (List.mem_of_mem_take he)).1), zero_add]
  rw [hout]
  have hanyiff : (((refilterSurvivors lim es).take K).any
      (fun e => JsNum.lt (.fin 0) e.score) = true) ↔ sQ2 ≠ 0 := by
    rw [List.any_eq_true]
    constructor
    · rintro ⟨e, he, hp⟩ h0
      obtain ⟨q, hq⟩ := JsNum.isFinite_iff.mp (hsurv e (List.mem_of_mem_take he)).1
      rw [hq] at hp
      have hql : 0 < q := by simpa [JsNum.lt] using hp
      have hz := (qsum_nonneg_eq_zero_iff _ hterm_nonneg).mp h0 _
        (List.mem_map_of_mem _ he)
      rw [hq] at hz
      simp only [JsNum.toQ] at hz
      exact absurd hz (ne_of_gt hql)
    · intro hne
      by_contra hno
      apply hne
      apply (qsum_nonneg_eq_zero_iff _ hterm_nonneg).mpr
      intro y hy
      obtain ⟨e, he, rfl⟩ := List.mem_map.mp hy
      obtain ⟨q, hq⟩ := JsNum.isFinite_iff.mp (hsurv e (List.mem_of_mem_take he)).1
      have hfalse : JsNum.lt (.fin 0) e.score = false := by
        rcases Bool.eq_false_or_eq_true (JsNum.lt (.fin 0) e.score) with hb | hb
        · exact absurd ⟨e, he, hb⟩ hno
        · exact hb
      rw [hq] at hfalse ⊢
      have hq0 : ¬ 0 < q := by simpa [JsNum.lt] using hfalse
      have hq0' := (hsurv e (List.mem_of_mem_take he)).2
      rw [hq] at hq0'
      simp only [JsNum.toQ] at hq0' ⊢
      linarith [not_lt.mp hq0]
  refine ⟨?_, ?_, ?_⟩
  · intro x hx
    rcases reweight_weight_mem K (.fin sQ2) (refilterSurvivors lim es) 0 x hx with
      h0 | ⟨hS, e, he, hw⟩
    · rw [h0]
      exact ⟨rfl, le_refl 0, by norm_num [JsNum.toQ]⟩
    · rw [Nat.sub_zero] at he
      have hpos : 0 < sQ2 := by simpa [JsNum.lt] using hS
      obtain ⟨q, hq⟩ := JsNum.isFinite_iff.mp (hsurv e (List.mem_of_mem_take he)).1
      have hqn : 0 ≤ q := by
        have := (hsurv e (List.mem_of_mem_take he)).2
        rwa [hq] at this
      have hqle : q ≤ sQ2 := by
        have := List.single_le_sum hterm_nonneg _
          (List.mem_map_of_mem (fun e => e.score.toQ) he)
        rwa [hq] at this
      rw [hw, hq, JsNum.div_fin _ _ (ne_of_gt hpos)]
      refine ⟨rfl, ?_, ?_⟩
      · show (0:ℚ) ≤ q / sQ2
        exact div_nonneg hqn hpos.le
      · show q / sQ2 ≤ 1
        rw [div_le_one hpos]
        exact hqle
  · have htake : ((reweight K (.fin sQ2) 0 (refilterSurvivors lim es)).take K).map
        (fun e => e.weight.toQ) =
        ((refilterSurvivors lim es).take K).map (fun e =>
          if 0 < sQ2 then (e.score.div (.fin sQ2)).toQ else 0) := by
      have := reweight_take_weightsQ K sQ2 (refilterSurvivors lim es) 0
      simpa using this
    have hanyeq : ((reweight K (.fin sQ2) 0 (refilterSurvivors lim es)).take K).any
        (fun e => JsNum.lt (.fin 0) e.score) =
        ((refilterSurvivors lim es).take K).any
          (fun e => JsNum.lt (.fin 0) e.score) := by
      apply Bool.eq_iff_iff.mpr
      simp only [List.any_eq_true]
      constructor
      · rintro ⟨x, hx, hp⟩
        have hsc : x.score ∈ ((refilterSurvivors lim es).take K).map
            (fun e => e.score) := by
          rw [List.map_take, ← reweight_map_score K (.fin sQ2)
            (refilterSurvivors lim es) 0, ← List.map_take]
          exact List.mem_map_of_mem _ hx
        obtain ⟨e, he, hse⟩ := List.mem_map.mp hsc
        exact ⟨e, he, by rw [hse]; exact hp⟩
      · rintro ⟨x, hx, hp⟩
        have hsc : x.score ∈ ((reweight K (.fin sQ2) 0
            (refilterSurvivors lim es)).take K).map (fun e => e.score) := by
          rw [List.map_take, reweight_map_score K (.fin sQ2)
            (refilterSurvivors lim es) 0, ← List.map_take]
          exact List.mem_map_of_mem _ hx
        obtain ⟨e, he, hse⟩ := List.mem_map.mp hsc
        exact ⟨e, he, by rw [hse]; exact hp⟩
    rw [htake, hanyeq]
    by_cases hpos : 0 < sQ2
    · have hpoint : ((refilterSurvivors lim es).take K).map (fun e =>
          if 0 < sQ2 then (e.score.div (.fin sQ2)).toQ else 0) =
          ((refilterSurvivors lim es).take K).map (fun e => e.score.toQ * sQ2⁻¹) := by
        apply List.map_congr_left
        intro e he
        obtain ⟨q, hq⟩ := JsNum.isFinite_iff.mp (hsurv e (List.mem_of_mem_take he)).1
        rw [if_pos hpos, hq, JsNum.div_fin _ _ (ne_of_gt hpos)]
        simp [JsNum.toQ, div_eq_mul_inv]
      rw [hpoint, List.sum_map_mul_right, ← hsQ2,
        if_pos (hanyiff.mpr (ne_of_gt hpos))]
      exact mul_inv_cancel₀ (ne_of_gt hpos)
    · have h0 : sQ2 = 0 := le_antisymm (not_lt.mp hpos) hsQ2_nonneg
      have hpoint : ((refilterSurvivors lim es).take K).map (fun e =>
          if 0 < sQ2 then (e.score.div (.fin sQ2)).toQ else 0) =
          ((refilterSurvivors lim es).take K).map (fun _ => (0:ℚ)) := by
        apply List.map_congr_left
        intro e _
        rw [if_neg hpos]
      rw [hpoint, if_neg (fun hc => (hanyiff.mp hc) h0)]
      simp
  · intro x hx
    exact reweight_drop_weight K (.fin sQ2) (refilterSurvivors lim es) 0 x
      (by simpa using hx)

/-!
Claim C1 — weight normalization.
-/

/-- Claim C1, amended: for the phase-1 output of `scoreEntries` the claim
holds as stated — every weight is finite and in `[0, 1]`, every entry with
rank above `selectCount` has weight exactly 0, and the weight sum over
entries with rank ≤ `selectCount` is exactly 1 when some such entry has
positive score and exactly 0 otherwise (exact rationals, no epsilon).  For
the phase-2 re-filter of `refreshPeriod` the rank-based statement fails
(see the counterexample: ranks are stale after filtering), and the
invariant is amended to positions: when the re-filter removed at least one
entry, the weights of the first `selectCount` positions sum to 1 exactly
when one of them has positive score, all weights lie in `[0, 1]`, and all
later positions have weight 0 — under the hypothesis (true of phase-1
output under the default non-negative component weights) that the enriched
entries carry finite, non-negative scores. -/
theorem scoreEntries_weight_invariant (ops : RealOps) (params : ScoringParams)
    (hard lim : ℚ) (K : ℕ) (raws : List LeaderboardRawEntry) (es : List RankedEntry)
    (hes : ∀ e ∈ es, e.score.isFinite = true ∧ 0 ≤ e.score.toQ) :
    (∀ x ∈ scoreEntries ops params hard K raws,
        x.weight.isFinite = true ∧ 0 ≤ x.weight.toQ ∧ x.weight.toQ ≤ 1) ∧
    (((scoreEntries ops params hard K raws).filter
        (fun e => decide (e.rank ≤ K))).map (fun e => e.weight.toQ)).sum =
      (if (scoreEntries ops params hard K raws).any
          (fun e => decide (e.rank ≤ K) && JsNum.lt (.fin 0) e.score) then 1 else 0) ∧
    (∀ x ∈ scoreEntries ops params hard K raws, K < x.rank → x.weight = .fin 0) ∧
    ((refilterSurvivors lim es).length < es.length →
      (∀ x ∈ refreshRefilter lim K es,
          x.weight.isFinite = true ∧ 0 ≤ x.weight.toQ ∧ x.weight.toQ ≤ 1) ∧
      (((refreshRefilter lim K es).take K).map (fun e => e.weight.toQ)).sum =
        (if ((refreshRefilter lim K es).take K).any
            (fun e => JsNum.lt (.fin 0) e.score) then 1 else 0) ∧
      (∀ x ∈ (refreshRefilter lim K es).drop K, x.weight = .fin 0)) := by
  have hfin : ∀ e ∈ sortByScoreDesc
      (if (scoreSurvivors ops params hard raws).isEmpty = true
       then scoreBase ops params hard raws
       else scoreSurvivors ops params hard raws), e.score.isFinite = true := by
    intro e he
    have he' := sortByScoreDesc_mem.mp he
    have hbase : ∀ y ∈ scoreBase ops params hard raws, y.score.isFinite = true := by
      intro y hy
      rw [scoreBase_eq_map] at hy
      obtain ⟨r, _, rfl⟩ := List.mem_map.mp hy
      exact mapEntry_score_finite ops params hard r
    split at he'
    · exact hbase e he'
    · unfold scoreSurvivors at he'
      exact hbase e (List.mem_of_mem_filter (List.mem_of_mem_filter he'))
  have hinv := rankWeight_invariant K _ hfin
  have heq : scoreEntries ops params hard K raws =
      assignRankWeight K (totalScoreOf K (sortByScoreDesc
        (if (scoreSurvivors ops params hard raws).isEmpty = true
         then scoreBase ops params hard raws
         else scoreSurvivors ops params hard raws))) 0
        (sortByScoreDesc
          (if (scoreSurvivors ops params hard raws).isEmpty = true
           then scoreBase ops params hard raws
           else scoreSurvivors ops params hard raws)) := rfl
  rw [heq]
  exact ⟨hinv.1, hinv.2.1, hinv.2.2,
    fun hsh => refilter_weight_invariant lim K es hes hsh⟩

/-- An empty raw entry used to build concrete ranked entries. -/
def emptyRawEntry : LeaderboardRawEntry :=
  { address := "0xa", winRate := none, executedOrders := none, realizedPnl := none
    remark := none, labels := none, pnlList := none, maxDrawdown := none, stats := none }

/-- A template ranked entry for concrete phase-2 instances. -/
def baseRankedEntry : RankedEntry :=
  { address := "0xa", rank := 0, score := .fin 0, weight := .fin 0, filtered := false
    filterReason := none, winRate := .fin 0, executedOrders := .fin 0
    realizedPnl := .fin 0, efficiency := .fin 0, pnlConsistency := 0, remark := none
    labels := [], statOpenPositions := none, statClosedPositions := none
    statAvgPosDuration := none, statTotalPnl := none, statMaxDrawdown := none
    meta := ⟨emptyRawEntry, none⟩ }

/-- Rank-1 enriched entry whose `statMaxDrawdown` (90%) exceeds the limit. -/
def phase2EntryA : RankedEntry :=
  { baseRankedEntry with address := "0xa", rank := 1, score := .fin 1
                         weight := .fin 1, statMaxDrawdown := some (.fin (9/10)) }

/-- Rank-2 enriched entry with a harmless 10% `statMaxDrawdown`. -/
def phase2EntryB : RankedEntry :=
  { baseRankedEntry with address := "0xb", rank := 2, score := .fin 1
                         weight := .fin 0, statMaxDrawdown := some (.fin (1/10)) }

/-- Claim C1, counterexample: after the phase-2 re-filter removes the
rank-1 entry, the surviving entry keeps its stale rank 2 and receives the
full weight 1 — so an entry with rank > selectCount (= 1) has non-zero
weight, and the weight sum over entries with rank ≤ selectCount is 0 even
though a top-selectCount (by position) entry has positive score. -/
theorem refreshRefilter_weight_rank_violation :
    (refreshRefilter (80/100) 1 [phase2EntryA, phase2EntryB]).map
      (fun e => (e.rank, e.weight)) = [(2, .fin 1)] ∧
    ¬ (∀ x ∈ refreshRefilter (80/100) 1 [phase2EntryA, phase2EntryB],
        1 < x.rank → x.weight = .fin 0) ∧
    (((refreshRefilter (80/100) 1 [phase2EntryA, phase2EntryB]).filter
        (fun e => decide (e.rank ≤ 1))).map (fun e => e.weight.toQ)).sum = 0 ∧
    ((refreshRefilter (80/100) 1 [phase2EntryA, phase2EntryB]).any
        (fun e => JsNum.lt (.fin 0) e.score)) = true := by
  have hout : refreshRefilter (80/100) 1 [phase2EntryA, phase2EntryB] =
      [{ phase2EntryB with weight := .fin 1 }] := by
    norm_num [refreshRefilter, refilterSurvivors, reweight, phase2EntryA, phase2EntryB,
      baseRankedEntry, emptyRawEntry, JsNum.lt, JsNum.add, JsNum.div, Option.getD,
      List.filter_cons]
  rw [hout]
  refine ⟨by norm_num [phase2EntryB, baseRankedEntry, emptyRawEntry], ?_, ?_, ?_⟩
  · intro hall
    have := hall { phase2EntryB with weight := .fin 1 } (by simp)
      (by norm_num [phase2EntryB, baseRankedEntry, emptyRawEntry])
    simp at this
  · norm_num [phase2EntryB, baseRankedEntry, emptyRawEntry, List.filter_cons]
  · norm_num [phase2EntryB, baseRankedEntry, emptyRawEntry, JsNum.lt]

/-- Witness for the amended C1 theorem: the phase-1 sum rule at a concrete
input, and the positional phase-2 rule on a concrete shrunk list. -/
theorem scoreEntries_weight_invariant_witness :
    (∀ e ∈ [phase2EntryA, phase2EntryB], e.score.isFinite = true ∧ 0 ≤ e.score.toQ) ∧
    ((((scoreEntries ratOps DEFAULT_SCORING_PARAMS 200 1 [steadyRaw]).filter
        (fun e => decide (e.rank ≤ 1))).map (fun e => e.weight.toQ)).sum =
      (if (scoreEntries ratOps DEFAULT_SCORING_PARAMS 200 1 [steadyRaw]).any
          (fun e => decide (e.rank ≤ 1) && JsNum.lt (.fin 0) e.score) then 1 else 0)) ∧
    (refilterSurvivors (80/100) [phase2EntryA, phase2EntryB]).length <
      [phase2EntryA, phase2EntryB].length ∧
    ((((refreshRefilter (80/100) 1 [phase2EntryA, phase2EntryB]).take 1).map
        (fun e => e.weight.toQ)).sum =
      (if ((refreshRefilter (80/100) 1 [phase2EntryA, phase2EntryB]).take 1).any
          (fun e => JsNum.lt (.fin 0) e.score) then 1 else 0)) := by
  have hes : ∀ e ∈ [phase2EntryA, phase2EntryB],
      e.score.isFinite = true ∧ 0 ≤ e.score.toQ := by
    intro e he
    rcases List.mem_cons.mp he with rfl | he
    · exact ⟨rfl, by norm_num [phase2EntryA, baseRankedEntry, JsNum.toQ]⟩
    · rcases List.mem_cons.mp he with rfl | he
      · exact ⟨rfl, by norm_num [phase2EntryB, baseRankedEntry, JsNum.toQ]⟩
      · cases he
  have hsh : (refilterSurvivors (80/100) [phase2EntryA, phase2EntryB]).length <
      [phase2EntryA, phase2EntryB].length := by
    norm_num [refilterSurvivors, phase2EntryA, phase2EntryB, baseRankedEntry,
      emptyRawEntry, JsNum.lt, Option.getD, List.filter_cons]
  have t := scoreEntries_weight_invariant ratOps DEFAULT_SCORING_PARAMS 200 (80/100) 1
    [steadyRaw] [phase2EntryA, phase2EntryB] hes
  exact ⟨hes, t.2.1, hsh, (t.2.2.2 hsh).2.1⟩

/-!
Claim C2 — ranks after the phase-2 re-filter.
-/

/-- Claim C2, counterexample: the phase-2 re-filter of `refreshPeriod`
does not re-assign ranks.  After it removes the rank-1 entry, the
surviving single entry keeps rank 2, so the persisted rank values are not
a dense permutation 1..N of the surviving set. -/
theorem refreshRefilter_ranks_not_dense :
    ((refreshRefilter (80/100) 12 [phase2EntryA, phase2EntryB]).map (fun e => e.rank))
      = [2] ∧
    ¬ ((refreshRefilter (80/100) 12 [phase2EntryA, phase2EntryB]).map (fun e => e.rank)
      = List.range' 1
        (refreshRefilter (80/100) 12 [phase2EntryA, phase2EntryB]).length) := by
  have hout : refreshRefilter (80/100) 12 [phase2EntryA, phase2EntryB] =
      [{ phase2EntryB with weight := .fin 1 }] := by
    norm_num [refreshRefilter, refilterSurvivors, reweight, phase2EntryA, phase2EntryB,
      baseRankedEntry, emptyRawEntry, JsNum.lt, JsNum.add, JsNum.div, Option.getD,
      List.filter_cons]
  rw [hout]
  constructor
  · norm_num [phase2EntryB, baseRankedEntry]
  · norm_num [phase2EntryB, baseRankedEntry, List.range']

/-- Claim C2, amended: the phase-2 re-filter preserves the order, ranks
and scores of the surviving entries (only weights are recomputed); it does
not re-sort (the input is already score-descending from phase 1 and scores
are unchanged) and does not re-assign ranks — so surviving ranks remain
strictly increasing but form a dense 1..N only when no entry was removed,
in which case the list is returned unchanged. -/
theorem refreshRefilter_rank_structure (lim : ℚ) (K : ℕ) (es : List RankedEntry) :
    (refreshRefilter lim K es).map (fun e => (e.rank, e.score)) =
      (refilterSurvivors lim es).map (fun e => (e.rank, e.score)) ∧
    ((refilterSurvivors lim es).length = es.length → refreshRefilter lim K es = es) ∧
    (es.Pairwise (fun a b => a.rank < b.rank) →
      (refreshRefilter lim K es).Pairwise (fun a b => a.rank < b.rank)) := by
  have hpart1 : (refreshRefilter lim K es).map (fun e => (e.rank, e.score)) =
      (refilterSurvivors lim es).map (fun e => (e.rank, e.score)) := by
    unfold refreshRefilter
    dsimp only
    split
    · exact reweight_map_rank_score K _ (refilterSurvivors lim es) 0
    · rfl
  have hsurv_eq : (refilterSurvivors lim es).length = es.length →
      refilterSurvivors lim es = es := by
    intro h
    exact List.Sublist.eq_of_length (List.filter_sublist es) h
  refine ⟨hpart1, ?_, ?_⟩
  · intro h
    unfold refreshRefilter
    dsimp only
    rw [if_neg (by rw [hsurv_eq h]; exact lt_irrefl _)]
    exact hsurv_eq h
  · intro hp
    have hp2 : (refilterSurvivors lim es).Pairwise (fun a b => a.rank < b.rank) :=
      List.Pairwise.filter _ hp
    have hmap : ((refreshRefilter lim K es).map (fun e => (e.rank, e.score))).Pairwise
        (fun a b => a.1 < b.1) := by
      rw [hpart1, List.pairwise_map]
      exact hp2
    rw [List.pairwise_map] at hmap
    exact hmap

/-- Witness for the amended C2 theorem at concrete inputs: order and ranks
preserved on a shrunk list, identity on an unshrunk list. -/
theorem refreshRefilter_rank_structure_witness :
    ([phase2EntryA, phase2EntryB].Pairwise (fun a b => a.rank < b.rank)) ∧
    ((refreshRefilter (80/100) 12 [phase2EntryA, phase2EntryB]).Pairwise
      (fun a b => a.rank < b.rank)) ∧
    (refilterSurvivors (80/100) [phase2EntryB]).length = [phase2EntryB].length ∧
    refreshRefilter (80/100) 12 [phase2EntryB] = [phase2EntryB] := by
  have hp : [phase2EntryA, phase2EntryB].Pairwise (fun a b => a.rank < b.rank) := by
    norm_num [phase2EntryA, phase2EntryB, baseRankedEntry, List.pairwise_cons]
  have hlen : (refilterSurvivors (80/100) [phase2EntryB]).length =
      [phase2EntryB].length := by
    norm_num [refilterSurvivors, phase2EntryB, baseRankedEntry, emptyRawEntry,
      JsNum.lt, Option.getD, List.filter_cons]
  exact ⟨hp,
    (refreshRefilter_rank_structure (80/100) 12 [phase2EntryA, phase2EntryB]).2.2 hp,
    hlen, (refreshRefilter_rank_structure (80/100) 12 [phase2EntryB]).2.1 hlen⟩

/-!
Claim C8 — uniqueness of pnl-point keys within a transaction.
-/

theorem upsertPnl_map_ts (ts v : ℚ) : ∀ m : List MergedSample,
    (upsertPnl ts v m).map (fun s => s.ts) =
      if ts ∈ m.map (fun s => s.ts) then m.map (fun s => s.ts)
      else m.map (fun s => s.ts) ++ [ts] := by
  intro m
  induction m with
  | nil => simp [upsertPnl]
  | cons s rest ih =>
    by_cases h : s.ts = ts
    · simp [upsertPnl, h]
    · simp only [upsertPnl, if_neg h, List.map_cons, ih]
      by_cases hm : ts ∈ rest.map (fun s => s.ts)
      · rw [if_pos hm, if_pos (List.mem_cons_of_mem _ hm)]
      · rw [if_neg hm, if_neg (by
          intro hc
          rcases List.mem_cons.mp hc with hc | hc
          · exact h hc.symm
          · exact hm hc)]
        simp

theorem upsertEquity_map_ts (ts v : ℚ) : ∀ m : List MergedSample,
    (upsertEquity ts v m).map (fun s => s.ts) =
      if ts ∈ m.map (fun s => s.ts) then m.map (fun s => s.ts)
      else m.map (fun s => s.ts) ++ [ts] := by
  intro m
  induction m with
  | nil => simp [upsertEquity]
  | cons s rest ih =>
    by_cases h : s.ts = ts
    · simp [upsertEquity, h]
    · simp only [upsertEquity, if_neg h, List.map_cons, ih]
      by_cases hm : ts ∈ rest.map (fun s => s.ts)
      · rw [if_pos hm, if_pos (List.mem_cons_of_mem _ hm)]
      · rw [if_neg hm, if_neg (by
          intro hc
          rcases List.mem_cons.mp hc with hc | hc
          · exact h hc.symm
          · exact hm hc)]
        simp

theorem upsertPnl_nodup (ts v : ℚ) (m : List MergedSample)
    (h : (m.map (fun s => s.ts)).Nodup) :
    ((upsertPnl ts v m).map (fun s => s.ts)).Nodup := by
  rw [upsertPnl_map_ts]
  split
  · exact h
  · next hmem => simp [List.nodup_append, h, hmem]

theorem upsertEquity_nodup (ts v : ℚ) (m : List MergedSample)
    (h : (m.map (fun s => s.ts)).Nodup) :
    ((upsertEquity ts v m).map (fun s => s.ts)).Nodup := by
  rw [upsertEquity_map_ts]
  split
  · exact h
  · next hmem => simp [List.nodup_append, h, hmem]

theorem foldl_upsertPnl_nodup (ps : List HistPoint) :
    ∀ m : List MergedSample, (m.map (fun s => s.ts)).Nodup →
    ((ps.foldl (fun m p => upsertPnl p.ts p.value m) m).map (fun s => s.ts)).Nodup := by
  induction ps with
  | nil => intro m h; exact h
  | cons p rest ih => intro m h; exact ih _ (upsertPnl_nodup _ _ _ h)

theorem foldl_upsertEquity_nodup (ps : List HistPoint) :
    ∀ m : List MergedSample, (m.map (fun s => s.ts)).Nodup →
    ((ps.foldl (fun m p => upsertEquity p.ts p.value m) m).map
      (fun s => s.ts)).Nodup := by
  induction ps with
  | nil => intro m h; exact h
  | cons p rest ih => intro m h; exact ih _ (upsertEquity_nodup _ _ _ h)

/-- The JS `Map` keyed by timestamp deduplicates within one series: the
merged samples have pairwise-distinct timestamps. -/
theorem mergeHistories_ts_nodup (s : WindowSeries) :
    ((mergeHistories s).map (fun x => x.ts)).Nodup := by
  unfold mergeHistories
  dsimp only
  have h2 := foldl_upsertPnl_nodup s.pnlHistory [] (by simp)
  have h3 := foldl_upsertEquity_nodup s.equityHistory _ h2
  have hperm := (List.perm_insertionSort (fun a b => a.ts ≤ b.ts)
    (s.equityHistory.foldl (fun m p => upsertEquity p.ts p.value m)
      (s.pnlHistory.foldl (fun m p => upsertPnl p.ts p.value m) []))).map
    (fun x => x.ts)
  exact hperm.nodup_iff.mpr h3

/-- The converted timestamps of a tracked entry's meta pnl list (the ones
that become hyperbot row keys). -/
def hyperbotTsKeys (e : RankedEntry) : List ℤ :=
  (e.meta.raw.pnlList.getD []).filterMap (fun p =>
    match metaPointTs p with
    | .fin tq => dateFromMs tq
    | _ => none)

/-- The converted timestamps of one merged window series (the ones that
become hyperliquid row keys). -/
def hlMergedTs (s : WindowSeries) : List ℤ :=
  (mergeHistories s).filterMap (fun x => dateFromMs x.ts)

theorem key_tuple_inj (a s w : String) :
    Function.Injective (fun d : ℤ => ((a, s, w, d) : String × String × String × ℤ)) := by
  intro d1 d2 h
  simpa using h

theorem hyperbotRowsOf_map_key (w : String) (e : RankedEntry) :
    (hyperbotRowsOf w e).map PnlRow.key =
      (hyperbotTsKeys e).map (fun d => (e.address.toLower, "hyperbot", w, d)) := by
  unfold hyperbotRowsOf hyperbotTsKeys
  rw [List.map_filterMap, List.map_filterMap]
  congr 1
  funext p
  cases h : metaPointTs p <;> simp only [h, Option.map_map] <;> rfl

theorem hlSeriesRows_map_key (a : String) (s : WindowSeries) :
    (((mergeHistories s).filterMap (fun sample => (dateFromMs sample.ts).map (fun d =>
      ({ address := a, source := "hyperliquid", window := s.window, ts := d
         pnlValue := sample.pnl, equityValue := sample.equity } : PnlRow)))).map
        PnlRow.key) =
      (hlMergedTs s).map (fun d => (a, "hyperliquid", s.window, d)) := by
  unfold hlMergedTs
  rw [List.map_filterMap, List.map_filterMap]
  congr 1
  funext sample
  simp only [Option.map_map]
  cases dateFromMs sample.ts <;> simp [PnlRow.key]

theorem hyperliquidRowsOf_map_key (period : ℤ) (a : String)
    (sl : List WindowSeries) :
    (hyperliquidRowsOf period a sl).map PnlRow.key =
      (sl.filter (fun s => decide (windowPeriodMap s.window = some period))).flatMap
        (fun s => (hlMergedTs s).map (fun d => (a, "hyperliquid", s.window, d))) := by
  unfold hyperliquidRowsOf
  induction sl with
  | nil => rfl
  | cons s rest ih =>
    rw [List.flatMap_cons, List.map_append, ih, List.filter_cons]
    by_cases h : windowPeriodMap s.window = some period
    · rw [if_pos h]
      simp only [decide_eq_true_eq, h, if_true, List.flatMap_cons]
      rw [hlSeriesRows_map_key]
    · rw [if_neg h]
      simp only [decide_eq_true_eq, h, if_false]
      simp

/-- A raw entry whose meta pnl list repeats the timestamp 1 with two
different values. -/
def dupPnlRaw : LeaderboardRawEntry :=
  { emptyRawEntry with pnlList := some (
      [.record (some (.num (.fin 1))) (some (.num (.fin 1))) none,
       .record (some (.num (.fin 1))) (some (.num (.fin 2))) none]) }

/-- A tracked entry carrying `dupPnlRaw` as its meta blob. -/
def dupTracked : RankedEntry :=
  { baseRankedEntry with meta := ⟨dupPnlRaw, none⟩ }

/-- A tracked entry whose meta pnl list produces two hyperbot rows with the
same (address, source, window, timestamp) key: nothing deduplicates the
meta pnl list, so the per-transaction key-uniqueness invariant fails. -/
theorem buildPnlPoints_duplicate_key :
    ¬ ((buildPnlPoints 30 [dupTracked] []).map PnlRow.key).Nodup := by
  norm_num [buildPnlPoints, hyperbotRowsOf, dupTracked, dupPnlRaw, emptyRawEntry,
    baseRankedEntry, metaPointTs, metaPointVal, jsNumberOf, dateFromMs, PnlRow.key,
    List.filterMap_cons, List.filterMap_nil]

/-- Claim C8: within one `insertPnlPointsInTransaction` call every
(address, source, window, timestamp) key carries at most one point,
PROVIDED the converted hyperbot timestamps of each tracked entry are
pairwise distinct, the lowercased tracked addresses are pairwise distinct,
the series-map addresses are pairwise distinct, the matching window names
of each address are pairwise distinct, and the converted merged timestamps
of each series are pairwise distinct.  The hyperliquid merge itself always
deduplicates timestamps within one series (second conjunct,
unconditionally), but nothing deduplicates a tracked entry's meta pnl
list, so the unconditional claim fails. -/
theorem buildPnlPoints_keys_nodup (period : ℤ) (tracked : List RankedEntry)
    (series : List (String × List WindowSeries))
    (h1 : ∀ e ∈ tracked, (hyperbotTsKeys e).Nodup)
    (h2 : (tracked.map (fun e => e.address.toLower)).Nodup)
    (h3 : (series.map Prod.fst).Nodup)
    (h4 : ∀ p ∈ series,
      ((p.2.filter (fun s => decide (windowPeriodMap s.window = some period))).map
        (fun s => s.window)).Nodup)
    (h5 : ∀ p ∈ series, ∀ s ∈ p.2, (hlMergedTs s).Nodup) :
    ((buildPnlPoints period tracked series).map PnlRow.key).Nodup ∧
      ∀ s : WindowSeries, ((mergeHistories s).map (fun x => x.ts)).Nodup := by
  refine ⟨?_, mergeHistories_ts_nodup⟩
  unfold buildPnlPoints
  rw [List.map_append, List.nodup_append]
  refine ⟨?_, ?_, ?_⟩
  · rw [List.map_flatMap, List.nodup_flatMap]
    constructor
    · intro e he
      rw [hyperbotRowsOf_map_key]
      exact List.Nodup.map (key_tuple_inj _ _ _) (h1 e he)
    · have h2' := List.pairwise_map.mp h2
      refine h2'.imp ?_
      intro a b hne
      simp only [Function.onFun]
      intro k hka hkb
      rw [hyperbotRowsOf_map_key] at hka hkb
      obtain ⟨d1, _, rfl⟩ := List.mem_map.mp hka
      obtain ⟨d2, _, hk⟩ := List.mem_map.mp hkb
      exact hne ((congrArg Prod.fst hk).symm)
  · rw [List.map_flatMap, List.nodup_flatMap]
    constructor
    · intro p hp
      rw [hyperliquidRowsOf_map_key, List.nodup_flatMap]
      constructor
      · intro s hs
        exact List.Nodup.map (key_tuple_inj _ _ _)
          (h5 p hp s (List.mem_of_mem_filter hs))
      · have h4' := List.pairwise_map.mp (h4 p hp)
        refine h4'.imp ?_
        intro s1 s2 hw
        simp only [Function.onFun]
        intro k hk1 hk2
        obtain ⟨d1, _, rfl⟩ := List.mem_map.mp hk1
        obtain ⟨d2, _, hk⟩ := List.mem_map.mp hk2
        exact hw ((congrArg (fun t => t.2.2.1) hk).symm)
    · have h3' := List.pairwise_map.mp h3
      refine h3'.imp ?_
      intro p q hne
      simp only [Function.onFun]
      intro k hk1 hk2
      rw [hyperliquidRowsOf_map_key] at hk1 hk2
      obtain ⟨s1, _, hm1⟩ := List.mem_flatMap.mp hk1
      obtain ⟨d1, _, rfl⟩ := List.mem_map.mp hm1
      obtain ⟨s2, _, hm2⟩ := List.mem_flatMap.mp hk2
      obtain ⟨d2, _, hk⟩ := List.mem_map.mp hm2
      exact hne ((congrArg Prod.fst hk).symm)
  · intro k hkA hkB
    rw [List.map_flatMap] at hkA hkB
    obtain ⟨e, _, hke⟩ := List.mem_flatMap.mp hkA
    rw [hyperbotRowsOf_map_key] at hke
    obtain ⟨d1, _, rfl⟩ := List.mem_map.mp hke
    obtain ⟨p, _, hkp⟩ := List.mem_flatMap.mp hkB
    rw [hyperliquidRowsOf_map_key] at hkp
    obtain ⟨s, _, hms⟩ := List.mem_flatMap.mp hkp
    obtain ⟨d2, _, hk⟩ := List.mem_map.mp hms
    have hsrc : "hyperliquid" = "hyperbot" := congrArg (fun t => t.2.1) hk
    simp at hsrc

/-- A tracked entry with a single well-formed meta pnl point. -/
def c8Tracked : RankedEntry :=
  { baseRankedEntry with meta := ⟨{ emptyRawEntry with pnlList := some (
      [.record (some (.num (.fin 1))) (some (.num (.fin 1))) none]) }, none⟩ }

/-- A monthly window series with one pnl sample and one equity sample. -/
def c8Series : WindowSeries :=
  { window := "month", pnlHistory := [⟨1, 5⟩], equityHistory := [⟨2, 7⟩] }

/-- Witness for C8 at a one-entry, one-series instance. -/
theorem buildPnlPoints_keys_nodup_witness :
    ((∀ e ∈ [c8Tracked], (hyperbotTsKeys e).Nodup) ∧
     (([c8Tracked].map (fun e => e.address.toLower)).Nodup) ∧
     (([("0xb", [c8Series])].map Prod.fst).Nodup) ∧
     (∀ p ∈ [("0xb", [c8Series])],
       ((p.2.filter (fun s => decide (windowPeriodMap s.window = some (30 : ℤ)))).map
         (fun s => s.window)).Nodup) ∧
     (∀ p ∈ [("0xb", [c8Series])], ∀ s ∈ p.2, (hlMergedTs s).Nodup)) ∧
    (((buildPnlPoints 30 [c8Tracked] [("0xb", [c8Series])]).map PnlRow.key).Nodup ∧
      ∀ s : WindowSeries, ((mergeHistories s).map (fun x => x.ts)).Nodup) := by
  have hh1 : ∀ e ∈ [c8Tracked], (hyperbotTsKeys e).Nodup := by
    intro e he
    simp only [List.mem_singleton] at he
    subst he
    norm_num [hyperbotTsKeys, c8Tracked, emptyRawEntry, baseRankedEntry,
      metaPointTs, jsNumberOf, dateFromMs, List.filterMap_cons, List.filterMap_nil]
  have hh2 : (([c8Tracked].map (fun e => e.address.toLower)).Nodup) := by
    simp
  have hh3 : (([("0xb", [c8Series])].map Prod.fst).Nodup) := by
    simp
  have hh4 : ∀ p ∈ [("0xb", [c8Series])],
      ((p.2.filter (fun s => decide (windowPeriodMap s.window = some (30 : ℤ)))).map
        (fun s => s.window)).Nodup := by
    intro p hp
    simp only [List.mem_singleton] at hp
    subst hp
    simp [c8Series, windowPeriodMap]
  have hh5 : ∀ p ∈ [("0xb", [c8Series])], ∀ s ∈ p.2, (hlMergedTs s).Nodup := by
    intro p hp s hs
    simp only [List.mem_singleton] at hp
    subst hp
    simp only [List.mem_singleton] at hs
    subst hs
    norm_num [hlMergedTs, mergeHistories, upsertPnl, upsertEquity, c8Series,
      dateFromMs, List.insertionSort, List.orderedInsert,
      List.filterMap_cons, List.filterMap_nil]
  exact ⟨⟨hh1, hh2, hh3, hh4, hh5⟩,
    buildPnlPoints_keys_nodup 30 [c8Tracked] [("0xb", [c8Series])] hh1 hh2 hh3 hh4 hh5⟩
